import Mathlib

/-!
# Verification of the VFS version-control core

Shallow embedding of the content-addressed version-control engine
(`VirtualFileSystem`, `VirtualFile`, `InMemoryObjectStore`, `GitIgnore`)
and proofs of the specified properties.

Host-library primitives that the source calls (Node's `crypto` SHA-1,
`Buffer.byteLength`, `path` joining/resolution, JavaScript `Map`,
`String.prototype.localeCompare`, `Array.prototype.sort`) are modelled
explicitly; each model carries a doc comment stating what it models.
Queue-driven loops of the source (`getAncestors`, `findMergeBase`,
`log`, tree recursion through the store) are embedded with an explicit
fuel parameter, since the source loops would diverge on a cyclic store.
-/

/-! ## Bytes and UTF-8 (model of Node's utf-8 handling)

Node's `crypto.createHash('sha1').update(s)` and `Buffer.byteLength(s)`
interpret the JavaScript string `s` as UTF-8 bytes.  We model a byte as a
`Nat` below 256 and encode Lean strings (sequences of Unicode scalar
values, as in well-formed JS strings) by the standard UTF-8 encoding. -/

/-- UTF-8 encoding of a single Unicode scalar value (as bytes in `Nat`). -/
def utf8Char (n : Nat) : List Nat :=
  if n < 0x80 then [n]
  else if n < 0x800 then
    [0xC0 ||| (n >>> 6), 0x80 ||| (n &&& 0x3F)]
  else if n < 0x10000 then
    [0xE0 ||| (n >>> 12), 0x80 ||| ((n >>> 6) &&& 0x3F), 0x80 ||| (n &&& 0x3F)]
  else
    [0xF0 ||| (n >>> 18), 0x80 ||| ((n >>> 12) &&& 0x3F),
     0x80 ||| ((n >>> 6) &&& 0x3F), 0x80 ||| (n &&& 0x3F)]

/-- UTF-8 bytes of a string. -/
def utf8Bytes (s : String) : List Nat :=
  (s.data.map (fun c => utf8Char c.toNat)).flatten

/-- Model of Node `Buffer.byteLength(s)` (UTF-8 byte length). -/
def byteLength (s : String) : Nat :=
  (utf8Bytes s).length

/-! ## SHA-1 (model of Node `crypto.createHash('sha1')`)

A direct implementation of FIPS 180 SHA-1 over byte lists, using `Nat`
arithmetic reduced mod `2^32`. -/

/-- Truncate to a 32-bit word. -/
def w32 (n : Nat) : Nat := n % 4294967296

/-- Left rotation of a 32-bit word. -/
def rotl (k x : Nat) : Nat := w32 ((x <<< k) ||| (x >>> (32 - k)))

/-- Big-endian bytes (most significant first) of `v`, `n` bytes wide. -/
def beBytes : Nat → Nat → List Nat
  | 0, _ => []
  | n + 1, v => beBytes n (v / 256) ++ [v % 256]

/-- SHA-1 message padding: append `0x80`, zeros to 56 mod 64, then the
64-bit big-endian bit length. -/
def sha1Pad (msg : List Nat) : List Nat :=
  let L := msg.length
  let k := (119 - (L % 64)) % 64
  msg ++ [0x80] ++ List.replicate k 0 ++ beBytes 8 (8 * L)

/-- Split into 64-byte chunks (`fuel` bounds the recursion). -/
def chunksAux : Nat → List Nat → List (List Nat)
  | 0, _ => []
  | _, [] => []
  | f + 1, l => l.take 64 :: chunksAux f (l.drop 64)

/-- Big-endian 32-bit words of a 64-byte block. -/
def blockWords : List Nat → List Nat
  | b0 :: b1 :: b2 :: b3 :: rest =>
    (((b0 * 256 + b1) * 256 + b2) * 256 + b3) :: blockWords rest
  | _ => []

/-- Extend 16 words to 80 by `w[i] = rotl 1 (w[i-3]^w[i-8]^w[i-14]^w[i-16])`. -/
def sha1Extend : Nat → List Nat → List Nat
  | 0, ws => ws
  | n + 1, ws =>
    let m := ws.length
    sha1Extend n (ws ++ [rotl 1 ((ws.getD (m - 3) 0) ^^^ (ws.getD (m - 8) 0) ^^^
      (ws.getD (m - 14) 0) ^^^ (ws.getD (m - 16) 0))])

/-- Round function `f` of SHA-1. -/
def sha1F (i b c d : Nat) : Nat :=
  if i < 20 then (b &&& c) ||| ((b ^^^ 0xFFFFFFFF) &&& d)
  else if i < 40 then b ^^^ c ^^^ d
  else if i < 60 then (b &&& c) ||| (b &&& d) ||| (c &&& d)
  else b ^^^ c ^^^ d

/-- Round constant `K` of SHA-1. -/
def sha1K (i : Nat) : Nat :=
  if i < 20 then 0x5A827999
  else if i < 40 then 0x6ED9EBA1
  else if i < 60 then 0x8F1BBCDC
  else 0xCA62C1D6

/-- One SHA-1 block compression. -/
def sha1Block (h : Nat × Nat × Nat × Nat × Nat) (block : List Nat) :
    Nat × Nat × Nat × Nat × Nat :=
  let ws := sha1Extend 64 (blockWords block)
  let (h0, h1, h2, h3, h4) := h
  let st := (List.range 80).foldl
    (fun st i =>
      let (a, b, c, d, e) := st
      let t := w32 (rotl 5 a + sha1F i b c d + e + sha1K i + ws.getD i 0)
      (t, a, rotl 30 b, c, d))
    (h0, h1, h2, h3, h4)
  let (a, b, c, d, e) := st
  (w32 (h0 + a), w32 (h1 + b), w32 (h2 + c), w32 (h3 + d), w32 (h4 + e))

/-- Lowercase hexadecimal digit. -/
def hexDigit (n : Nat) : Char :=
  if n < 10 then Char.ofNat (48 + n) else Char.ofNat (87 + n)

/-- Lowercase hexadecimal rendering of a word, `k` digits wide. -/
def hexWord : Nat → Nat → String
  | 0, _ => ""
  | k + 1, v => hexWord k (v / 16) ++ String.singleton (hexDigit (v % 16))

/-- SHA-1 digest of a byte list, as a 40-char lowercase hex string. -/
def sha1HexBytes (msg : List Nat) : String :=
  let padded := sha1Pad msg
  let blocks := chunksAux padded.length padded
  let (h0, h1, h2, h3, h4) := blocks.foldl sha1Block
    (0x67452301, 0xEFCDAB89, 0x98BADCFE, 0x10325476, 0xC3D2E1F0)
  hexWord 8 h0 ++ hexWord 8 h1 ++ hexWord 8 h2 ++ hexWord 8 h3 ++ hexWord 8 h4

/-- Model of Node `crypto.createHash('sha1').update(s).digest('hex')`:
SHA-1 over the UTF-8 bytes of `s`, rendered as lowercase hex. -/
def sha1Hex (s : String) : String :=
  sha1HexBytes (utf8Bytes s)

/-! ## JavaScript `Map` (association list preserving insertion order)

A JS `Map` iterates entries in insertion order; `set` on an existing key
updates the value in place (keeping the key's position), otherwise it
appends.  We model a `Map` with string keys as a `List (String × β)`. -/

/-- Model of `Map.prototype.get` (first matching key). -/
def mapGet {β : Type} : List (String × β) → String → Option β
  | [], _ => none
  | (k', v) :: rest, k => if k' = k then some v else mapGet rest k

/-- Model of `Map.prototype.has`. -/
def mapHas {β : Type} (m : List (String × β)) (k : String) : Bool :=
  (mapGet m k).isSome

/-- Model of `Map.prototype.set`: update in place, else append. -/
def mapSet {β : Type} : List (String × β) → String → β → List (String × β)
  | [], k, v => [(k, v)]
  | (k', v') :: rest, k, v =>
    if k' = k then (k, v) :: rest else (k', v') :: mapSet rest k v

/-- Model of `Map.prototype.delete`: afterwards `get` is absent. -/
def mapDelete {β : Type} (m : List (String × β)) (k : String) : List (String × β) :=
  m.filter (fun p => decide (p.1 ≠ k))

/-- Model of building a `Map` by inserting a sequence of entries in order
(`new Map(entries)`, or `clear` followed by `set` for each entry). -/
def mapFromPairs {β : Type} (l : List (String × β)) : List (String × β) :=
  l.foldl (fun m p => mapSet m p.1 p.2) []

/-- Model of `new Set(list)` iteration order: first occurrences, in order. -/
def jsSetList (l : List String) : List String :=
  l.foldl (fun acc x => if x ∈ acc then acc else acc ++ [x]) []

/-- JavaScript truthiness of a string-or-undefined value: the empty string
and `undefined` are both falsy.  `jsTruthy o` is `some s` exactly when the
JS value is truthy. -/
def jsTruthy : Option String → Option String
  | some s => if s = "" then none else some s
  | none => none

/-! ## Path handling (model of Node `path` as the engine uses it)

The engine resolves a relative path against its root with `path.resolve`
and recovers relative paths with `path.relative(root, abs)`.  The engine
only ever produces keys of the form `root ++ "/" ++ rel` with
forward-slash paths free of `.`/`..` segments, so we model resolution as
prefixing and relativisation as prefix-stripping. -/

/-- Model of JS `String.prototype.startsWith` (computed on the character
sequences). -/
def strStartsWith (s pre : String) : Bool :=
  pre.data.isPrefixOf s.data

/-- Model of JS `String.prototype.split(sep)` for a one-character
separator. -/
def splitOnChar (c : Char) (s : String) : List String :=
  splitOnCharAux c s.data []
where
  /-- Accumulates the current segment in reverse. -/
  splitOnCharAux (c : Char) : List Char → List Char → List String
    | [], cur => [String.mk cur.reverse]
    | x :: xs, cur =>
      if x = c then String.mk cur.reverse :: splitOnCharAux c xs []
      else splitOnCharAux c xs (x :: cur)

/-- Model of `path.resolve(root, p)` for forward-slash paths without
`.`/`..` segments. -/
def resolvePath (root p : String) : String :=
  if strStartsWith p "/" then p else root ++ "/" ++ p

/-- Model of `path.relative(root, abs).replace(/\\/g, '/')` for paths of
the form `root ++ "/" ++ rel` (other paths are returned unchanged; the
engine does not produce them). -/
def relativePath (root abs : String) : String :=
  if strStartsWith abs (root ++ "/") then String.mk (abs.data.drop (root ++ "/").data.length)
  else abs

/-! ## `VirtualFile`

The file entity of the working tree (`VirtualFile.ts`).  The derived
`context` metadata (language detection, imports/exports) is advisory
only — it never influences `content`, `version`, or any hash — and is
not modelled. -/

/-- A working-tree file: absolute path, current content, version counter. -/
structure VirtualFile where
  path : String
  content : String
  version : Nat
deriving DecidableEq, Repr

/-- `VirtualFile.update`: identical writes are a no-op; a content change
replaces the content and bumps the version by one. -/
def VirtualFile.update (f : VirtualFile) (newContent : String) : VirtualFile :=
  if f.content = newContent then f
  else { f with content := newContent, version := f.version + 1 }

/-! ## Git objects (`types.ts`) and hashing (`VirtualFileSystem.hashObject`) -/

/-- A tree entry (`GitTreeEntry`): mode `"100644"` or `"040000"`, kind tag
`"blob"` or `"tree"`, hash, and name. -/
structure GitTreeEntry where
  mode : String
  type : String
  hash : String
  name : String
deriving DecidableEq, Repr

/-- The tagged union `AnyGitObject = GitBlob | GitTree | GitCommit`. -/
inductive AnyGitObject : Type
  | blob (hash : String) (content : String)
  | tree (hash : String) (entries : List GitTreeEntry)
  | commit (hash : String) (tree : String) (parents : List String)
      (message : String) (author : String) (timestamp : Nat)
deriving DecidableEq, Repr

/-- The `hash` field common to all object kinds. -/
def AnyGitObject.hash : AnyGitObject → String
  | .blob h _ => h
  | .tree h _ => h
  | .commit h _ _ _ _ _ => h

/-- The `type` tag common to all object kinds. -/
def AnyGitObject.typeName : AnyGitObject → String
  | .blob _ _ => "blob"
  | .tree _ _ => "tree"
  | .commit _ _ _ _ _ _ => "commit"

/-- The `header` helper inside `hashObject`:
`` `${type} ${Buffer.byteLength(c)}\0` ``. -/
def objectHeader (t c : String) : String :=
  t ++ " " ++ toString (byteLength c) ++ "\x00"

/-- `VirtualFileSystem.hashObject`: SHA-1 of header plus serialized
content.  The `hash` field of the argument is ignored (the source takes
an `Omit<AnyGitObject, 'hash'>`). -/
def hashObject : AnyGitObject → String
  | .blob _ content =>
    sha1Hex (objectHeader "blob" content ++ content)
  | .tree _ entries =>
    let content := String.intercalate "\n"
      (entries.map (fun e => e.mode ++ " " ++ e.type ++ " " ++ e.hash ++ " " ++ e.name))
    sha1Hex (objectHeader "tree" content ++ content)
  | .commit _ tree parents message author timestamp =>
    let content := String.intercalate "\n"
      (["tree " ++ tree]
        ++ parents.map (fun p => "parent " ++ p)
        ++ ["author " ++ author ++ " " ++ toString timestamp,
            "committer " ++ author ++ " " ++ toString timestamp,
            "",
            message])
    sha1Hex (objectHeader "commit" content ++ content)

/-- `VirtualFileSystem.createBlob`: a blob whose hash is `hashObject`
of its content. -/
def createBlob (content : String) : AnyGitObject :=
  .blob (hashObject (.blob "" content)) content

/-! ## Spec-side serialization (claim C1)

These definitions follow the words of the spec (§3 "Hashing"), to be
compared with the source's `hashObject`. -/

/-- Per the spec: a blob serializes as its raw content; a tree as one
`"<mode> <kind> <hex-hash> <name>"` line per entry joined by single
newlines with no trailing newline; a commit as the tree line, one parent
line per parent in declared order, an author line, a committer line with
committer equal to author, a blank line, and the message verbatim. -/
def specSerializedContent : AnyGitObject → String
  | .blob _ content => content
  | .tree _ entries =>
    String.intercalate "\n"
      (entries.map (fun e => e.mode ++ " " ++ e.type ++ " " ++ e.hash ++ " " ++ e.name))
  | .commit _ tree parents message author timestamp =>
    String.intercalate "\n"
      (["tree " ++ tree]
        ++ parents.map (fun p => "parent " ++ p)
        ++ ["author " ++ author ++ " " ++ toString timestamp,
            "committer " ++ author ++ " " ++ toString timestamp,
            "",
            message])

/-- Per the spec: the hash is the SHA-1 hex digest of
`"<type> <byte-length-of-serialized-content>\0"` concatenated with the
serialized content. -/
def specHash (o : AnyGitObject) : String :=
  sha1Hex (o.typeName ++ " " ++ toString (byteLength (specSerializedContent o)) ++ "\x00"
    ++ specSerializedContent o)

/-! ## Locale collation (model of `String.prototype.localeCompare`)

`buildTreeFromPaths` sorts tree entries with
`a.name.localeCompare(b.name)`.  Under Node's default (ICU root) locale,
restricted to ASCII, strings compare primarily by case-folded characters
(so letters compare alphabetically ignoring case) and, on a primary tie,
lowercase sorts before uppercase (`'a' < 'A'`, and `'a' < 'B' < 'b'`).
We model this with a two-part key compared lexicographically. -/

/-- Case bit of a character: lowercase (and caseless) before uppercase. -/
def caseBit (c : Char) : Nat := if c.isUpper then 1 else 0

/-- Collation key: case-folded code points (shifted above the separator
`0`), a separator, then the case bits. -/
def locKey (s : String) : List Nat :=
  s.data.map (fun c => c.toLower.toNat + 1) ++ 0 :: s.data.map caseBit

/-- Lexicographic `≤` on lists of naturals. -/
def leNatList : List Nat → List Nat → Bool
  | [], _ => true
  | _ :: _, [] => false
  | a :: as, b :: bs =>
    if a < b then true else if b < a then false else leNatList as bs

/-- Model of `a.localeCompare(b)` (sign only, which is all `sort` uses). -/
def localeCompare (a b : String) : Int :=
  if locKey a = locKey b then 0
  else if leNatList (locKey a) (locKey b) then -1 else 1

/-- Insert into a list sorted by a JS comparator (`cmp a b ≤ 0` means `a`
may precede `b`). -/
def insertCmp {α : Type} (cmp : α → α → Int) (a : α) : List α → List α
  | [] => [a]
  | b :: bs => if cmp a b ≤ 0 then a :: b :: bs else b :: insertCmp cmp a bs

/-- Model of `Array.prototype.sort(cmp)`: a sort by the comparator
(insertion sort; any comparison sort agrees on a total comparator). -/
def sortCmp {α : Type} (cmp : α → α → Int) (l : List α) : List α :=
  l.foldr (insertCmp cmp) []

/-! ## The path trie of `buildTreeFromPaths`

`buildTreeFromPaths` first folds the flat `relPath → blobHash` map into a
nested plain JS object.  A node is either a blob marker
(`{type:'blob', hash}`) or a directory object whose own keys are the
child names; we model both as `PNode` with an optional blob hash.
Assigning the final path segment replaces the child wholesale; an
intermediate segment keeps an existing child (`current[part] =
current[part] || {}`) and descends into it. -/

/-- A node of the nested path object built by `buildTreeFromPaths`. -/
inductive PNode : Type
  | mk (blobHash : Option String) (children : List (String × PNode))

/-- The children of a node. -/
def PNode.children : PNode → List (String × PNode)
  | .mk _ ch => ch

/-- The blob marker of a node. -/
def PNode.blobHash : PNode → Option String
  | .mk bh _ => bh

/-- Insert one `parts → blobHash` path into the nested object, exactly as
the first loop of `buildTreeFromPaths` does. -/
def insertParts : PNode → List String → String → PNode
  | n, [], _ => n
  | .mk bh ch, [p], h => .mk bh (mapSet ch p (.mk (some h) []))
  | .mk bh ch, p :: rest, h =>
    let child := (mapGet ch p).getD (.mk none [])
    .mk bh (mapSet ch p (insertParts child rest h))

/-- The tail of `createTreeRecursive` once the entry list is collected:
sort entries by `localeCompare` on names, hash the tree, store it, and
return its hash. -/
def mkTreeObject (raw : List GitTreeEntry) (store : List (String × AnyGitObject)) :
    String × List (String × AnyGitObject) :=
  let entries := sortCmp (fun a b => localeCompare a.name b.name) raw
  let h := hashObject (.tree "" entries)
  (h, mapSet store h (.tree h entries))

/-- The entry-collecting loop of `createTreeRecursive` over a node's keys
in order: a blob child yields a `"100644"` entry; a directory child is
recursively built (storing its subtrees first) and yields a `"040000"`
entry.  `fuel` only bounds the recursion; `buildTreeFromPaths` supplies
more than enough. -/
def ctAux : Nat → List (String × PNode) → List (String × AnyGitObject) →
    List GitTreeEntry × List (String × AnyGitObject)
  | 0, _, store => ([], store)
  | _ + 1, [], store => ([], store)
  | f + 1, (name, PNode.mk (some h) _) :: rest, store =>
    let (es, store') := ctAux f rest store
    (⟨"100644", "blob", h, name⟩ :: es, store')
  | f + 1, (name, PNode.mk none ch) :: rest, store =>
    let (rawSub, store₁) := ctAux f ch store
    let (sub, store₂) := mkTreeObject rawSub store₁
    let (es, store₃) := ctAux f rest store₂
    (⟨"040000", "tree", sub, name⟩ :: es, store₃)

/-- `createTreeRecursive` on one node. -/
def createTreeNode (fuel : Nat) (n : PNode) (store : List (String × AnyGitObject)) :
    String × List (String × AnyGitObject) :=
  let (raw, store₁) := ctAux fuel n.children store
  mkTreeObject raw store₁

/-- An upper bound on the recursion steps `ctAux` needs for the trie of a
given path map (the source recursion is structural on the finite trie;
the bound is generous). -/
def buildTreeFuel (fileHashes : List (String × String)) : Nat :=
  fileHashes.foldl (fun n p => n + 2 * p.1.length + 4) 1

/-- `VirtualFileSystem.buildTreeFromPaths`: fold the flat map into the
nested object, then build, hash, and store the tree DAG bottom-up,
returning the root tree hash and the extended store. -/
def buildTreeFromPaths (fileHashes : List (String × String))
    (store : List (String × AnyGitObject)) : String × List (String × AnyGitObject) :=
  let root := fileHashes.foldl (fun r p => insertParts r (splitOnChar '/' p.1) p.2)
    (PNode.mk none [])
  createTreeNode (buildTreeFuel fileHashes) root store

/-! ## `GitIgnore`

The parser trims each line, skips empty lines and `#` comments, strips a
leading `!` into a `negative` flag, translates the glob into a regex
source string, and compiles it, skipping patterns that fail to compile.
The regex engine itself is a host facility (`new RegExp` / `test`), so
the compiled matcher is a parameter `compile : String → Option (String →
Bool)` (`none` models a `RegExp` constructor throw); everything the
claims state about `GitIgnore` holds for every matcher semantics. -/

/-- The regex metacharacters escaped by `parse`
(`/[.+^${}()|[\]\\*?]/g`). -/
def regexSpecials : List Char :=
  ['.', '+', '^', '$', Char.ofNat 123, Char.ofNat 125, '(', ')', '|', '[', ']', '\\', '*', '?']

/-- Step 1 of the translation: escape regex metacharacters. -/
def escapeSpecials (s : String) : String :=
  String.mk (s.data.foldr
    (fun c acc => if c ∈ regexSpecials then '\\' :: c :: acc else c :: acc) [])

/-- The glob-to-regex-source translation of `GitIgnore.parse` (applied to
the line after the `!` prefix has been stripped). -/
def globToRegex (line : String) : String :=
  let r := escapeSpecials line
  let r := r.replace "\\*\\*/" "(?:.*/)?"
  let r := r.replace "\\*\\*" ".*"
  let r := r.replace "\\*" "[^/]*"
  let r := r.replace "\\?" "."
  if line.endsWith "/" then r ++ ".*"
  else if !line.startsWith "/" then "(?:^|/)" ++ r ++ "(?:$|/.*)"
  else "^" ++ r.drop 1 ++ "(?:$|/.*)"

/-- `GitIgnore.parse`: the compiled pattern list, in file order. -/
def parseGitIgnore (compile : String → Option (String → Bool)) (content : String) :
    List ((String → Bool) × Bool) :=
  (content.split (· == '\n')).foldl
    (fun pats rawLine =>
      let line := rawLine.trim
      if line = "" || line.startsWith "#" then pats
      else
        let negative := line.startsWith "!"
        let body := if negative then line.drop 1 else line
        match compile (globToRegex body) with
        | some m => pats ++ [(m, negative)]
        | none => pats)
    []

/-- `GitIgnore.ignores`: scan all patterns in order; each matching pattern
overwrites the verdict (`true` unless negated). -/
def ignores (pats : List ((String → Bool) × Bool)) (filePath : String) : Bool :=
  pats.foldl (fun ignored pr => if pr.1 filePath then !pr.2 else ignored) false

/-! ### Spec-side ignore semantics (claim C9) -/

/-- Per the spec: what a single raw line contributes — nothing for blank
lines, `#` comments, and patterns that fail to compile; otherwise one
compiled matcher with its negation flag. -/
def lineToPattern (compile : String → Option (String → Bool)) (rawLine : String) :
    Option ((String → Bool) × Bool) :=
  let line := rawLine.trim
  if line = "" || line.startsWith "#" then none
  else
    let negative := line.startsWith "!"
    let body := if negative then line.drop 1 else line
    (compile (globToRegex body)).map (fun m => (m, negative))

/-- Per the spec: the verdict of the last pattern in file order whose
matcher matches the path (`true` unless that pattern is negated), and
`false` when no pattern matches. -/
def lastMatchVerdict (pats : List ((String → Bool) × Bool)) (filePath : String) : Bool :=
  match (pats.filter (fun pr => pr.1 filePath)).getLast? with
  | some pr => !pr.2
  | none => false

/-! ## The engine state (`VirtualFileSystem`) -/

/-- The mutable state of a `VirtualFileSystem` instance: the working
files (a `Map` from absolute path to file), the object store map of the
`InMemoryObjectStore`, the reference table, `HEAD`, and the root
directory. -/
structure VirtualFileSystem where
  workingFiles : List (String × VirtualFile)
  store : List (String × AnyGitObject)
  refs : List (String × String)
  HEAD : String
  rootDir : String
deriving DecidableEq, Repr

/-- A freshly constructed engine: `refs/heads/main` maps to the empty
string, `HEAD` is `refs/heads/main`. -/
def initVFS (rootDir : String) : VirtualFileSystem :=
  { workingFiles := [], store := [], refs := [("refs/heads/main", "")],
    HEAD := "refs/heads/main", rootDir := rootDir }

/-- `VirtualFileSystem.resolveRef`: an exact object hash resolves to
itself; otherwise a full ref name, then a short branch name, resolve
through the reference table. -/
def resolveRef (s : VirtualFileSystem) (ref : String) : Option String :=
  if (mapGet s.store ref).isSome then some ref
  else
    match mapGet s.refs ref with
    | some v => some v
    | none => mapGet s.refs ("refs/heads/" ++ ref)

/-- `VirtualFileSystem.updateRef`: a `refs/`-prefixed name updates the
table; otherwise (detached `HEAD`) `HEAD` itself is moved. -/
def updateRef (s : VirtualFileSystem) (refName commitHash : String) : VirtualFileSystem :=
  if strStartsWith refName "refs/" then
    { s with refs := mapSet s.refs refName commitHash }
  else
    { s with HEAD := commitHash }

/-- `VirtualFileSystem.loadGitIgnore`: the pattern list parsed from the
working-tree file `<root>/.gitignore`, when present. -/
def loadGitIgnore (compile : String → Option (String → Bool)) (s : VirtualFileSystem) :
    Option (List ((String → Bool) × Bool)) :=
  match mapGet s.workingFiles (s.rootDir ++ "/" ++ ".gitignore") with
  | some f => some (parseGitIgnore compile f.content)
  | none => none

/-- `VirtualFileSystem.deleteBranch`: fail for a missing branch, fail for
the checked-out branch, otherwise remove the reference. -/
def deleteBranch (s : VirtualFileSystem) (name : String) : Except String VirtualFileSystem :=
  if !(mapHas s.refs ("refs/heads/" ++ name)) then
    .error ("Branch " ++ name ++ " does not exist.")
  else if s.HEAD = "refs/heads/" ++ name then
    .error ("Cannot delete checked out branch " ++ name ++ ".")
  else
    .ok { s with refs := mapDelete s.refs ("refs/heads/" ++ name) }

/-! ## Walking trees in the store

`getTreeFiles` flattens a stored tree into a `relativePath → blobHash`
map; `restoreTree` writes a stored tree back into the working files.
Both recurse through the store by hash, so both take fuel (the source
would diverge on a cyclic store); every theorem below holds for every
fuel value. -/

/-- The entry loop of `getTreeFiles`: blobs record their hash under the
joined path; subtrees are flattened recursively (a missing or empty
subtree hash contributes nothing, as in the source) and merged in
order. -/
def getTreeFilesAux (store : List (String × AnyGitObject)) :
    Nat → List GitTreeEntry → String → List (String × String) → List (String × String)
  | 0, _, _, result => result
  | _ + 1, [], _, result => result
  | f + 1, e :: rest, basePath, result =>
    let fullPath := if basePath = "" then e.name else basePath ++ "/" ++ e.name
    let result' :=
      if e.type = "blob" then mapSet result fullPath e.hash
      else if e.type = "tree" then
        let sub :=
          if e.hash = "" then []
          else
            match mapGet store e.hash with
            | some (.tree _ entries) => getTreeFilesAux store f entries fullPath []
            | _ => []
        sub.foldl (fun r p => mapSet r p.1 p.2) result
      else result
    getTreeFilesAux store f rest basePath result'

/-- `VirtualFileSystem.getTreeFiles`: the flat `path → blobHash` map of a
stored tree (empty for an empty hash, a missing object, or a non-tree). -/
def getTreeFiles (store : List (String × AnyGitObject)) (fuel : Nat)
    (treeHash basePath : String) : List (String × String) :=
  if treeHash = "" then []
  else
    match mapGet store treeHash with
    | some (.tree _ entries) => getTreeFilesAux store fuel entries basePath []
    | _ => []

/-- The parent list of the object stored at `h` (empty when the object is
missing or not a commit), as both BFS loops read it. -/
def parentsOf (store : List (String × AnyGitObject)) (h : String) : List String :=
  match mapGet store h with
  | some (.commit _ _ parents _ _ _) => parents
  | _ => []

/-- The queue loop of `getAncestors`: pop, skip if already seen, else
record and enqueue the parents.  Also the visit order of a breadth-first
search from the initial queue. -/
def getAncestorsAux (store : List (String × AnyGitObject)) :
    Nat → List String → List String → List String
  | 0, _, seen => seen
  | _ + 1, [], seen => seen
  | f + 1, h :: queue, seen =>
    if h ∈ seen then getAncestorsAux store f queue seen
    else getAncestorsAux store f (queue ++ parentsOf store h) (seen ++ [h])

/-- `VirtualFileSystem.getAncestors`: every hash reachable from
`startHash` through parent lists, in BFS visit order (including
`startHash` itself). -/
def getAncestors (store : List (String × AnyGitObject)) (fuel : Nat)
    (startHash : String) : List String :=
  getAncestorsAux store fuel [startHash] []

/-- The BFS visit order from a start hash (spec-side name for the same
breadth-first walk used by `getAncestors`). -/
def bfsOrder (store : List (String × AnyGitObject)) (fuel : Nat) (start : String) :
    List String :=
  getAncestorsAux store fuel [start] []

/-- The queue loop of `findMergeBase`: pop, return the hash as soon as it
lies in the ancestor set, skip duplicates, else enqueue the parents. -/
def findMergeBaseAux (store : List (String × AnyGitObject)) (anc : List String) :
    Nat → List String → List String → Option String
  | 0, _, _ => none
  | _ + 1, [], _ => none
  | f + 1, h :: queue, visited =>
    if h ∈ anc then some h
    else if h ∈ visited then findMergeBaseAux store anc f queue visited
    else findMergeBaseAux store anc f (queue ++ parentsOf store h) (visited ++ [h])

/-- `VirtualFileSystem.findMergeBase`: collect the ancestors of `hash1`,
then BFS from `hash2` for the first hash in that set. -/
def findMergeBase (store : List (String × AnyGitObject)) (fuel : Nat)
    (hash1 hash2 : String) : Option String :=
  findMergeBaseAux store (getAncestors store fuel hash1) fuel [hash2] []

/-! ## Three-way merge -/

/-- The `tree` field read from the object at a hash, as the unchecked
`as GitCommit` casts of `threeWayMerge` do: a missing object is a crash
(`none`, propagated as a thrown `TypeError`); a present non-commit yields
the JS `undefined`, which `getTreeFiles` treats like the empty hash. -/
def treeOfHash (store : List (String × AnyGitObject)) (h : String) : Option String :=
  match mapGet store h with
  | none => none
  | some (.commit _ t _ _ _ _) => some t
  | some _ => some ""

/-- The per-path loop of `threeWayMerge` over the union of paths: equal
sides are accepted; a side change over an unchanged base takes theirs
(write, or delete when theirs is falsy); a base equal to theirs keeps
ours; anything else is a conflict error naming the path. -/
def twLoop (store : List (String × AnyGitObject)) (root : String)
    (baseFiles ourFiles theirFiles : List (String × String)) :
    List String → List (String × VirtualFile) →
    Except String (List (String × VirtualFile))
  | [], wf => .ok wf
  | p :: rest, wf =>
    let baseB := mapGet baseFiles p
    let ourB := mapGet ourFiles p
    let theirB := mapGet theirFiles p
    if ourB = theirB then twLoop store root baseFiles ourFiles theirFiles rest wf
    else if baseB = ourB then
      match jsTruthy theirB with
      | some t =>
        let wf' :=
          match mapGet store t with
          | some (.blob _ c) =>
            mapSet wf (resolvePath root p) ⟨resolvePath root p, c, 0⟩
          | _ => wf
        twLoop store root baseFiles ourFiles theirFiles rest wf'
      | none => twLoop store root baseFiles ourFiles theirFiles rest
          (mapDelete wf (resolvePath root p))
    else if baseB = theirB then twLoop store root baseFiles ourFiles theirFiles rest wf
    else .error ("Merge conflict in " ++ p)

/-- `VirtualFileSystem.threeWayMerge`: flatten the three trees, then run
the per-path loop over the union of their paths in first-seen order. -/
def threeWayMerge (fuel : Nat) (s : VirtualFileSystem)
    (baseHash ourHash theirHash : String) : Except String VirtualFileSystem :=
  match treeOfHash s.store baseHash, treeOfHash s.store ourHash,
      treeOfHash s.store theirHash with
  | some baseTree, some ourTree, some theirTree =>
    let baseFiles := getTreeFiles s.store fuel baseTree ""
    let ourFiles := getTreeFiles s.store fuel ourTree ""
    let theirFiles := getTreeFiles s.store fuel theirTree ""
    let allFiles := jsSetList
      (baseFiles.map (·.1) ++ ourFiles.map (·.1) ++ theirFiles.map (·.1))
    (twLoop s.store s.rootDir baseFiles ourFiles theirFiles allFiles
      s.workingFiles).map (fun wf => { s with workingFiles := wf })
  | _, _, _ => .error "TypeError: cannot read the tree of an absent commit"

/-- Per the spec (claim C3): a path on which base, ours, and theirs
pairwise diverge, which the loop cannot auto-resolve. -/
def threeWayDivergent (baseFiles ourFiles theirFiles : List (String × String))
    (p : String) : Bool :=
  decide (mapGet ourFiles p ≠ mapGet theirFiles p) &&
  decide (mapGet baseFiles p ≠ mapGet ourFiles p) &&
  decide (mapGet baseFiles p ≠ mapGet theirFiles p)

/-! ## Checkout -/

/-- The entry loop of `restoreTree`: blob entries become working files
with the blob's content (silently skipped when the blob is missing);
subtree entries recurse, failing on a missing subtree. -/
def restoreTreeAux (store : List (String × AnyGitObject)) :
    Nat → List GitTreeEntry → String → List (String × VirtualFile) →
    Except String (List (String × VirtualFile))
  | 0, _, _, _ => .error "out of fuel"
  | _ + 1, [], _, wf => .ok wf
  | f + 1, e :: rest, base, wf =>
    let fullPath := base ++ "/" ++ e.name
    if e.type = "blob" then
      let wf' :=
        match mapGet store e.hash with
        | some (.blob _ c) => mapSet wf fullPath ⟨fullPath, c, 0⟩
        | _ => wf
      restoreTreeAux store f rest base wf'
    else if e.type = "tree" then
      match
        (match mapGet store e.hash with
          | some (.tree _ entries) => restoreTreeAux store f entries fullPath wf
          | _ => .error ("Missing tree " ++ e.hash)) with
      | .ok wf' => restoreTreeAux store f rest base wf'
      | .error err => .error err
    else restoreTreeAux store f rest base wf

/-- `VirtualFileSystem.restoreTree` on a tree hash. -/
def restoreTree (store : List (String × AnyGitObject)) (fuel : Nat)
    (treeHash base : String) (wf : List (String × VirtualFile)) :
    Except String (List (String × VirtualFile)) :=
  match mapGet store treeHash with
  | some (.tree _ entries) => restoreTreeAux store fuel entries base wf
  | _ => .error ("Missing tree " ++ treeHash)

/-- `VirtualFileSystem.checkout`: resolve to a commit hash (the argument
itself when resolution is falsy), clear the working files and restore the
commit's tree, then point `HEAD` at the full ref, the short branch, or
the detached hash. -/
def checkout (fuel : Nat) (s : VirtualFileSystem) (hashOrRef : String) :
    Except String VirtualFileSystem :=
  let commitHash :=
    match jsTruthy (resolveRef s hashOrRef) with
    | some h => h
    | none => hashOrRef
  match mapGet s.store commitHash with
  | some (.commit _ tree _ _ _ _) =>
    match restoreTree s.store fuel tree s.rootDir [] with
    | .ok wf =>
      let newHEAD :=
        if strStartsWith hashOrRef "refs/" then hashOrRef
        else if mapHas s.refs ("refs/heads/" ++ hashOrRef) then
          "refs/heads/" ++ hashOrRef
        else commitHash
      .ok { s with workingFiles := wf, HEAD := newHEAD }
    | .error e => .error e
  | _ => .error ("Reference " ++ hashOrRef ++ " is not a valid commit.")

/-! ## Commit -/

/-- `VirtualFileSystem.commit`: hash and store a blob per non-ignored
working file, fold the `relPath → blobHash` map into stored trees, build
and store the commit object (parents default to the resolved `HEAD` when
not supplied; `now` is the `Date.now()` reading), and advance the ref
`HEAD` names (or `HEAD` itself when detached).  Returns the new state and
the commit hash. -/
def commit (compile : String → Option (String → Bool)) (s : VirtualFileSystem)
    (message author : String) (parents : Option (List String)) (now : Nat) :
    VirtualFileSystem × String :=
  let gitIgnore := loadGitIgnore compile s
  let (fileHashes, store₁) := s.workingFiles.foldl
    (fun (acc : List (String × String) × List (String × AnyGitObject)) p =>
      let relPath := relativePath s.rootDir p.1
      let ignored := match gitIgnore with
        | some gi => ignores gi relPath
        | none => false
      if ignored then acc
      else
        let blob := createBlob p.2.content
        (mapSet acc.1 relPath blob.hash, mapSet acc.2 blob.hash blob))
    ([], s.store)
  let (rootTreeHash, store₂) := buildTreeFromPaths fileHashes store₁
  let commitParents :=
    match parents with
    | some ps => ps
    | none =>
      match jsTruthy (resolveRef s s.HEAD) with
      | some h => [h]
      | none => []
  let ch := hashObject (.commit "" rootTreeHash commitParents message author now)
  let c := AnyGitObject.commit ch rootTreeHash commitParents message author now
  let s' := updateRef { s with store := mapSet store₂ ch c } s.HEAD ch
  (s', ch)

/-! ## Merge -/

/-- `VirtualFileSystem.merge`: resolve both sides (failing on falsy
resolutions), return early on equal heads, find the merge base (failing
on unrelated histories), fast-forward when the base is ours, return early
when the base is theirs, otherwise three-way merge the trees and commit
the result with both parents. -/
def merge (compile : String → Option (String → Bool)) (fuel : Nat)
    (s : VirtualFileSystem) (branchName : String) (now : Nat) :
    Except String (VirtualFileSystem × String) :=
  match jsTruthy (resolveRef s branchName) with
  | none => .error ("Branch " ++ branchName ++ " not found.")
  | some theirHash =>
    match jsTruthy (resolveRef s s.HEAD) with
    | none => .error "Nothing to merge into."
    | some ourHash =>
      if ourHash = theirHash then .ok (s, "Already up to date.")
      else
        match findMergeBase s.store fuel ourHash theirHash with
        | none => .error "Refusing to merge unrelated histories"
        | some baseHash =>
          if baseHash = ourHash then
            (checkout fuel s theirHash).map (fun s' => (s', "Fast-forward"))
          else if baseHash = theirHash then .ok (s, "Already up to date.")
          else
            (threeWayMerge fuel s baseHash ourHash theirHash).map (fun s' =>
              ((commit compile s' ("Merge branch \x27" ++ branchName ++ "\x27")
                "User" (some [ourHash, theirHash]) now).1, "Merge successful"))

/-! ## Log -/

/-- The `while` loop of `log`: stop on a falsy hash or a missing /
non-commit object, else record the commit and continue with
`parents[0] || ""`. -/
def logLoop (store : List (String × AnyGitObject)) : Nat → String → List AnyGitObject
  | 0, _ => []
  | f + 1, currentHash =>
    if currentHash = "" then []
    else
      match mapGet store currentHash with
      | some (.commit h t ps m a ts) =>
        AnyGitObject.commit h t ps m a ts :: logLoop store f (ps.headD "")
      | _ => []

/-- `VirtualFileSystem.log`: the history walked from the resolved `HEAD`. -/
def log (fuel : Nat) (s : VirtualFileSystem) : List AnyGitObject :=
  match resolveRef s s.HEAD with
  | some h => logLoop s.store fuel h
  | none => []

/-- Per claim C10: the chain obtained by repeatedly following only the
first parent of each commit, stopping at an empty parent list or a hash
that does not name a stored commit. -/
def firstParentChain (store : List (String × AnyGitObject)) :
    Nat → String → List AnyGitObject
  | 0, _ => []
  | f + 1, h =>
    match mapGet store h with
    | some (.commit hh t ps m a ts) =>
      AnyGitObject.commit hh t ps m a ts ::
        (match ps with
          | [] => []
          | p :: _ => firstParentChain store f p)
    | _ => []

/-! ## Snapshots

`saveToDisk` serializes the snapshot record to JSON on the host
filesystem and `loadFromDisk` parses it back; the JSON text and the file
round-trip faithfully for these plain records, so we model the snapshot
boundary as the record itself. -/

/-- The `FileSystemSnapshot` record (working files as `path`/`content`
records). -/
structure FileSystemSnapshot where
  objects : List (String × AnyGitObject)
  refs : List (String × String)
  head : String
  workingFiles : List (String × String)
deriving DecidableEq, Repr

/-- `VirtualFileSystem.saveToDisk`: the snapshot record written out —
every store entry, every ref, `HEAD`, and each working file's
path/content. -/
def saveToDisk (s : VirtualFileSystem) : FileSystemSnapshot :=
  { objects := s.store, refs := s.refs, head := s.HEAD,
    workingFiles := s.workingFiles.map (fun p => (p.2.path, p.2.content)) }

/-- `VirtualFileSystem.loadFromDisk`: replace the store contents
(`IObjectStore.load`), the reference table, `HEAD`, and the working files
(fresh `VirtualFile`s keyed by their stored paths). -/
def loadFromDisk (s : VirtualFileSystem) (snap : FileSystemSnapshot) :
    VirtualFileSystem :=
  { s with
    store := mapFromPairs snap.objects,
    refs := mapFromPairs snap.refs,
    HEAD := snap.head,
    workingFiles := snap.workingFiles.foldl
      (fun wf p => mapSet wf p.1 ⟨p.1, p.2, 0⟩) [] }

/-- The record returned by `VirtualFileSystem.getDatabaseDump`. -/
structure DatabaseDump where
  objects : List (String × AnyGitObject)
  refs : List (String × String)
  HEAD : String
deriving DecidableEq, Repr

/-- `VirtualFileSystem.getDatabaseDump`. -/
def getDatabaseDump (s : VirtualFileSystem) : DatabaseDump :=
  { objects := s.store, refs := s.refs, HEAD := s.HEAD }

/-! ## Auxiliary predicates and concrete states used by the theorems -/

/-- A concrete state for the `deleteBranch` witness. -/
def c7WitnessState : VirtualFileSystem :=
  { workingFiles := [], store := [],
    refs := [("refs/heads/main", ""), ("refs/heads/dev", "h")],
    HEAD := "refs/heads/main", rootDir := "/r" }

/-- A concrete state for the C6 witness: `main` and `b` both point at the
stored commit `h1`. -/
def c6WitnessState : VirtualFileSystem :=
  { workingFiles := [],
    store := [("h1", .commit "h1" "" [] "m" "U" 0)],
    refs := [("refs/heads/main", "h1"), ("refs/heads/b", "h1")],
    HEAD := "refs/heads/main", rootDir := "/r" }

/-- Keys of the object store are consistent: the key is the recomputed
`hashObject` of the stored object and equals its `hash` field. -/
def hashKeyOK (k : String) (o : AnyGitObject) : Prop :=
  k = hashObject o ∧ o.hash = k

/-- `StoreExtP P a b`: store `b` extends store `a`, and every entry not
already in `a` satisfies `P`. -/
def StoreExtP (P : String → AnyGitObject → Prop)
    (a b : List (String × AnyGitObject)) : Prop :=
  ∀ k o, mapGet b k = some o → mapGet a k = some o ∨ P k o

/-- A concrete state for the C10 witness: a merge commit on `main` whose
second parent `hx` must not appear in the log. -/
def c10WitnessState : VirtualFileSystem :=
  { workingFiles := [],
    store := [("h2", .commit "h2" "" ["h1", "hx"] "m2" "U" 1),
              ("h1", .commit "h1" "" [] "m1" "U" 0),
              ("hx", .commit "hx" "" [] "mx" "U" 0)],
    refs := [("refs/heads/main", "h2")],
    HEAD := "refs/heads/main", rootDir := "/r" }

/-- A concrete state for the C2 witness: two root commits with no common
ancestor. -/
def c2WitnessState : VirtualFileSystem :=
  { workingFiles := [],
    store := [("h1", .commit "h1" "" [] "a" "U" 0),
              ("h2", .commit "h2" "" [] "b" "U" 0)],
    refs := [("refs/heads/main", "h1"), ("refs/heads/b", "h2")],
    HEAD := "refs/heads/main", rootDir := "/r" }

/-- A concrete state for the C5 witness: one stored commit, an extra
branch, and an uncommitted working file. -/
def c5WitnessState : VirtualFileSystem :=
  { workingFiles := [("/r/k", ⟨"/r/k", "v2", 3⟩)],
    store := [("hc", .commit "hc" "ht" [] "c" "U" 0),
              ("ht", .tree "ht" [⟨"100644", "blob", "hb", "k"⟩]),
              ("hb", .blob "hb" "v")],
    refs := [("refs/heads/main", "hc"), ("refs/heads/dev", "hc")],
    HEAD := "refs/heads/main", rootDir := "/r" }

/-- The tree-shape property of claim C4 relative to the `localeCompare`
model: entries sorted ascending by the collation on names, with no
duplicate names.  Non-tree objects satisfy it trivially. -/
def treeSortedOK : String → AnyGitObject → Prop := fun _ o =>
  match o with
  | .tree _ entries =>
    entries.Pairwise (fun a b => localeCompare a.name b.name ≤ 0) ∧
    (entries.map GitTreeEntry.name).Nodup
  | _ => True

/-- Well-formedness of the path trie built by `buildTreeFromPaths`: the
children of every node have unique names (they are the keys of a JS
object). -/
inductive PWF : PNode → Prop where
  | mk : ∀ (bh : Option String) (ch : List (String × PNode)),
      (ch.map Prod.fst).Nodup → (∀ p ∈ ch, PWF p.2) → PWF (.mk bh ch)

/-- A concrete state for the C4 counterexample: working files named
`"B"` and `"a"`. -/
def c4CexState : VirtualFileSystem :=
  { workingFiles := [("/r/B", ⟨"/r/B", "1", 0⟩), ("/r/a", ⟨"/r/a", "2", 0⟩)],
    store := [], refs := [("refs/heads/main", "")],
    HEAD := "refs/heads/main", rootDir := "/r" }

/-- The code points of a string (for stating raw lexicographic order). -/
def rawCodes (s : String) : List Nat := s.data.map Char.toNat

/-- Strict raw lexicographic order on strings: code-point-wise
lexicographic comparison. -/
def rawLexLt (a b : String) : Prop :=
  leNatList (rawCodes a) (rawCodes b) = true ∧ rawCodes a ≠ rawCodes b

instance (a b : String) : Decidable (rawLexLt a b) := by
  unfold rawLexLt
  infer_instance

/-- Whether the store holds a blob object at a hash. -/
def isStoredBlob (store : List (String × AnyGitObject)) (t : String) : Bool :=
  match mapGet store t with
  | some (.blob _ _) => true
  | _ => false

/-- The per-path postcondition of claim C3 for `threeWayMerge`, relating
the working files `wf` before and `wf'` after the loop at path `p`: equal
sides leave the path unchanged; a side change over an unchanged base
takes theirs (the stored blob content is written, or the path is deleted
when theirs is absent); a base equal to theirs keeps ours unchanged. -/
def twPost (store : List (String × AnyGitObject)) (root : String)
    (baseF ourF theirF : List (String × String))
    (wf wf' : List (String × VirtualFile)) (p : String) : Prop :=
  (mapGet ourF p = mapGet theirF p →
    mapGet wf' (resolvePath root p) = mapGet wf (resolvePath root p)) ∧
  (mapGet ourF p ≠ mapGet theirF p → mapGet baseF p = mapGet ourF p →
    (mapGet theirF p = none → mapGet wf' (resolvePath root p) = none) ∧
    (∀ t bh2 c, mapGet theirF p = some t → mapGet store t = some (.blob bh2 c) →
      mapGet wf' (resolvePath root p) = some ⟨resolvePath root p, c, 0⟩)) ∧
  (mapGet ourF p ≠ mapGet theirF p → mapGet baseF p ≠ mapGet ourF p →
    mapGet baseF p = mapGet theirF p →
    mapGet wf' (resolvePath root p) = mapGet wf (resolvePath root p))

/-- A concrete state for the C3 witness: both sides changed the file `x`
differently since the base commit `c0` (the S3 conflict scenario). -/
def c3WitnessState : VirtualFileSystem :=
  { workingFiles := [("/r/x", ⟨"/r/x", "M", 1⟩)],
    store :=
      [("blob0", .blob "blob0" "0"), ("blob1", .blob "blob1" "M"),
       ("blob2", .blob "blob2" "B"),
       ("t0", .tree "t0" [⟨"100644", "blob", "blob0", "x"⟩]),
       ("t1", .tree "t1" [⟨"100644", "blob", "blob1", "x"⟩]),
       ("t2", .tree "t2" [⟨"100644", "blob", "blob2", "x"⟩]),
       ("c0", .commit "c0" "t0" [] "c0" "U" 0),
       ("cm", .commit "cm" "t1" ["c0"] "cm" "U" 1),
       ("cb", .commit "cb" "t2" ["c0"] "cb" "U" 2)],
    refs := [("refs/heads/main", "cm"), ("refs/heads/b", "cb")],
    HEAD := "refs/heads/main", rootDir := "/r" }

-- END-OF-DEFINITIONS

/-! ## Lemmas about the `Map` model -/

theorem mapGet_mapSet_self {β : Type} (m : List (String × β)) (k : String) (v : β) :
    mapGet (mapSet m k v) k = some v := by
  induction m with
  | nil => simp [mapSet, mapGet]
  | cons p rest ih =>
    obtain ⟨a, b⟩ := p
    by_cases h : a = k
    · simp [mapSet, mapGet, h]
    · simp [mapSet, mapGet, h, ih]

theorem mapGet_mapSet_ne {β : Type} (m : List (String × β)) (k k' : String) (v : β)
    (h : k' ≠ k) : mapGet (mapSet m k v) k' = mapGet m k' := by
  have h' : ¬(k = k') := fun hh => h hh.symm
  induction m with
  | nil => simp [mapSet, mapGet, h']
  | cons p rest ih =>
    obtain ⟨a, b⟩ := p
    by_cases hk : a = k
    · subst hk
      simp [mapSet, mapGet, h']
    · by_cases hk' : a = k'
      · simp [mapSet, mapGet, hk, hk', h]
      · simp [mapSet, mapGet, hk, hk', ih]

theorem mapGet_mapDelete_self {β : Type} (m : List (String × β)) (k : String) :
    mapGet (mapDelete m k) k = none := by
  induction m with
  | nil => rfl
  | cons p rest ih =>
    obtain ⟨a, b⟩ := p
    rw [mapDelete, List.filter_cons]
    by_cases h : a = k
    · rw [if_neg (by simp [h])]
      exact ih
    · rw [if_pos (by simp [h])]
      simp only [mapGet, if_neg h]
      exact ih

theorem mapGet_mapDelete_ne {β : Type} (m : List (String × β)) (k k' : String)
    (h : k' ≠ k) : mapGet (mapDelete m k) k' = mapGet m k' := by
  induction m with
  | nil => rfl
  | cons p rest ih =>
    obtain ⟨a, b⟩ := p
    rw [mapDelete, List.filter_cons]
    by_cases hk : a = k
    · have hk' : ¬(a = k') := by
        rw [hk]
        exact fun hh => h hh.symm
      rw [if_neg (by simp [hk])]
      simp only [mapGet, if_neg hk']
      exact ih
    · rw [if_pos (by simp [hk])]
      simp only [mapGet]
      by_cases hk' : a = k'
      · simp [hk']
      · simp only [if_neg hk']
        exact ih

theorem mapGet_mem {β : Type} {m : List (String × β)} {k : String} {v : β}
    (h : mapGet m k = some v) : (k, v) ∈ m := by
  induction m with
  | nil => simp [mapGet] at h
  | cons p rest ih =>
    obtain ⟨a, b⟩ := p
    by_cases hk : a = k
    · simp [mapGet, hk] at h
      subst hk h
      exact List.mem_cons_self _ _
    · simp [mapGet, hk] at h
      exact List.mem_cons_of_mem _ (ih h)

theorem mem_mapSet {β : Type} {m : List (String × β)} {k : String} {v : β} {x : String × β}
    (h : x ∈ mapSet m k v) : x ∈ m ∨ x = (k, v) := by
  induction m with
  | nil =>
    simp [mapSet] at h
    simp [h]
  | cons p rest ih =>
    obtain ⟨a, b⟩ := p
    by_cases hk : a = k
    · simp only [mapSet, if_pos hk, List.mem_cons] at h
      rcases h with h | h
      · right; exact h
      · left; exact List.mem_cons_of_mem _ h
    · simp only [mapSet, if_neg hk, List.mem_cons] at h
      rcases h with h | h
      · left; simp [h]
      · rcases ih h with h' | h'
        · left; exact List.mem_cons_of_mem _ h'
        · right; exact h'

theorem mapSet_keys_nodup {β : Type} {m : List (String × β)} (k : String) (v : β)
    (h : (m.map Prod.fst).Nodup) : ((mapSet m k v).map Prod.fst).Nodup := by
  induction m with
  | nil => simp [mapSet]
  | cons p rest ih =>
    obtain ⟨a, b⟩ := p
    by_cases hk : a = k
    · subst hk
      simpa [mapSet] using h
    · simp only [List.map_cons, List.nodup_cons] at h
      obtain ⟨h1, h2⟩ := h
      simp only [mapSet, if_neg hk, List.map_cons, List.nodup_cons]
      refine ⟨?_, ih h2⟩
      intro hmem
      rw [List.mem_map] at hmem
      obtain ⟨x, hx, hfst⟩ := hmem
      rcases mem_mapSet hx with hm | hm
      · exact h1 (List.mem_map.mpr ⟨x, hm, hfst⟩)
      · subst hm
        exact hk hfst.symm

theorem mapGet_eq_none_of_not_mem_keys {β : Type} {m : List (String × β)} {k : String}
    (h : k ∉ m.map Prod.fst) : mapGet m k = none := by
  induction m with
  | nil => rfl
  | cons p rest ih =>
    obtain ⟨a, b⟩ := p
    simp only [List.map_cons, List.mem_cons] at h
    push_neg at h
    simp [mapGet, Ne.symm h.1, ih h.2]

theorem mapSet_of_get_none {β : Type} {m : List (String × β)} {k : String} (v : β)
    (h : mapGet m k = none) : mapSet m k v = m ++ [(k, v)] := by
  induction m with
  | nil => rfl
  | cons p rest ih =>
    obtain ⟨a, b⟩ := p
    by_cases hk : a = k
    · simp [mapGet, hk] at h
    · simp [mapGet, hk] at h
      simp [mapSet, hk, ih h]

theorem mapGet_append_of_none {β : Type} {a : List (String × β)} (b : List (String × β))
    {k : String} (h : mapGet a k = none) : mapGet (a ++ b) k = mapGet b k := by
  induction a with
  | nil => rfl
  | cons p rest ih =>
    obtain ⟨x, y⟩ := p
    by_cases hk : x = k
    · simp [mapGet, hk] at h
    · simp [mapGet, hk] at h ⊢
      exact ih h

theorem mapFromPairs_eq_self {β : Type} (l : List (String × β))
    (h : (l.map Prod.fst).Nodup) : mapFromPairs l = l := by
  suffices H : ∀ (l acc : List (String × β)), (l.map Prod.fst).Nodup →
      (∀ k, k ∈ l.map Prod.fst → mapGet acc k = none) →
      l.foldl (fun m p => mapSet m p.1 p.2) acc = acc ++ l by
    simpa [mapFromPairs] using H l [] h (by intro k _; rfl)
  intro l
  induction l with
  | nil =>
    intro acc _ _
    simp
  | cons p rest ih =>
    intro acc hnd hacc
    simp only [List.foldl_cons]
    rw [mapSet_of_get_none p.2 (hacc p.1 (by simp))]
    simp only [List.map_cons, List.nodup_cons] at hnd
    rw [ih (acc ++ [(p.1, p.2)]) hnd.2 ?_]
    · simp
    · intro k hk
      rw [mapGet_append_of_none _ (hacc k (by simp [hk]))]
      have hne : ¬(p.1 = k) := by
        intro hh
        subst hh
        exact hnd.1 hk
      simp [mapGet, hne]

/-! ## Claim C8 -/

/-- Claim C8: writing byte-for-byte identical content leaves a working
file's version counter unchanged, writing different content increments it
by exactly one, and hence the counter is monotonic non-decreasing over
any sequence of writes in the file's lifetime. -/
theorem virtualFile_update_version :
    (∀ (f : VirtualFile) (c : String),
      (f.update c).version = if f.content = c then f.version else f.version + 1) ∧
    (∀ (f : VirtualFile) (cs : List String),
      f.version ≤ (cs.foldl VirtualFile.update f).version) := by
  constructor
  · intro f c
    unfold VirtualFile.update
    split <;> rfl
  · intro f cs
    induction cs generalizing f with
    | nil => exact Nat.le_refl _
    | cons c rest ih =>
      simp only [List.foldl_cons]
      refine Nat.le_trans ?_ (ih (f.update c))
      unfold VirtualFile.update
      split
      · exact Nat.le_refl _
      · exact Nat.le_succ _

/-! ## Claim C7 -/

/-- Claim C7: `deleteBranch` fails when `refs/heads/<name>` is absent
from the reference table, fails when `HEAD` is the symbolic ref
`refs/heads/<name>` (the checked-out branch), and otherwise removes
exactly that reference, leaving every other reference and the rest of the
state unchanged. -/
theorem deleteBranch_spec :
    ∀ (s : VirtualFileSystem) (name : String),
      (mapGet s.refs ("refs/heads/" ++ name) = none →
        deleteBranch s name = .error ("Branch " ++ name ++ " does not exist.")) ∧
      ((mapGet s.refs ("refs/heads/" ++ name)).isSome →
        s.HEAD = "refs/heads/" ++ name →
        deleteBranch s name =
          .error ("Cannot delete checked out branch " ++ name ++ ".")) ∧
      ((mapGet s.refs ("refs/heads/" ++ name)).isSome →
        s.HEAD ≠ "refs/heads/" ++ name →
        deleteBranch s name =
          .ok { s with refs := mapDelete s.refs ("refs/heads/" ++ name) } ∧
        mapGet (mapDelete s.refs ("refs/heads/" ++ name)) ("refs/heads/" ++ name) = none ∧
        ∀ r, r ≠ "refs/heads/" ++ name →
          mapGet (mapDelete s.refs ("refs/heads/" ++ name)) r = mapGet s.refs r) := by
  intro s name
  refine ⟨?_, ?_, ?_⟩
  · intro h
    simp [deleteBranch, mapHas, h]
  · intro h hhead
    simp [deleteBranch, mapHas, h, hhead]
  · intro h hhead
    refine ⟨by simp [deleteBranch, mapHas, h, hhead], mapGet_mapDelete_self _ _, ?_⟩
    intro r hr
    exact mapGet_mapDelete_ne _ _ _ hr

/-- Witness for claim C7 at a concrete state: deleting the existing,
not-checked-out branch `dev` removes exactly that reference. -/
theorem deleteBranch_spec_witness :
    deleteBranch c7WitnessState "dev" =
      .ok { c7WitnessState with refs := mapDelete c7WitnessState.refs "refs/heads/dev" } ∧
    mapGet (mapDelete c7WitnessState.refs "refs/heads/dev") "refs/heads/dev" = none :=
  ⟨((deleteBranch_spec c7WitnessState "dev").2.2 (by decide) (by decide)).1,
   ((deleteBranch_spec c7WitnessState "dev").2.2 (by decide) (by decide)).2.1⟩

/-! ## Claim C6 -/

/-- Claim C6: when the resolved `HEAD` and the resolved merge argument
are the same truthy hash, `merge` returns the "Already up to date."
sentinel with the state unchanged — same object store, reference table,
`HEAD`, and working tree — and in particular creates no commit. -/
theorem merge_already_up_to_date :
    ∀ (compile : String → Option (String → Bool)) (fuel : Nat)
      (s : VirtualFileSystem) (branch : String) (now : Nat) (h : String),
      jsTruthy (resolveRef s branch) = some h →
      jsTruthy (resolveRef s s.HEAD) = some h →
      merge compile fuel s branch now = .ok (s, "Already up to date.") := by
  intro compile fuel s branch now h h1 h2
  unfold merge
  rw [h1, h2]
  simp

/-- Witness for claim C6 at a concrete state. -/
theorem merge_already_up_to_date_witness :
    merge (fun _ => none) 5 c6WitnessState "b" 0 =
      .ok (c6WitnessState, "Already up to date.") :=
  merge_already_up_to_date (fun _ => none) 5 c6WitnessState "b" 0 "h1"
    (by decide) (by decide)
/-! ## Store-extension machinery -/

theorem storeExtP_refl (P : String → AnyGitObject → Prop)
    (a : List (String × AnyGitObject)) : StoreExtP P a a :=
  fun _ _ h => Or.inl h

theorem storeExtP_trans {P : String → AnyGitObject → Prop}
    {a b c : List (String × AnyGitObject)}
    (h1 : StoreExtP P a b) (h2 : StoreExtP P b c) : StoreExtP P a c := by
  intro k o h
  rcases h2 k o h with hb | hp
  · exact h1 k o hb
  · exact Or.inr hp

theorem storeExtP_mapSet {P : String → AnyGitObject → Prop}
    (m : List (String × AnyGitObject)) {k : String} {o : AnyGitObject}
    (hp : P k o) : StoreExtP P m (mapSet m k o) := by
  intro k' o' h
  by_cases hk : k' = k
  · subst hk
    rw [mapGet_mapSet_self] at h
    injection h with h
    subst h
    exact Or.inr hp
  · rw [mapGet_mapSet_ne _ _ _ _ hk] at h
    exact Or.inl h

theorem storeExtP_foldl {α σ : Type} (P : String → AnyGitObject → Prop)
    (proj : σ → List (String × AnyGitObject)) (step : σ → α → σ)
    (hstep : ∀ acc a, StoreExtP P (proj acc) (proj (step acc a))) :
    ∀ (l : List α) (acc : σ), StoreExtP P (proj acc) (proj (l.foldl step acc)) := by
  intro l
  induction l with
  | nil => intro acc; exact storeExtP_refl _ _
  | cons x xs ih =>
    intro acc
    exact storeExtP_trans (hstep acc x) (ih (step acc x))

theorem updateRef_store (s : VirtualFileSystem) (r h : String) :
    (updateRef s r h).store = s.store := by
  unfold updateRef
  split <;> rfl

/-! ## Hash-key consistency of objects added by `commit` -/

theorem hashObject_eq_specHash (o : AnyGitObject) : hashObject o = specHash o := by
  cases o <;> rfl

theorem mkTreeObject_ext_hash (raw : List GitTreeEntry)
    (store : List (String × AnyGitObject)) :
    StoreExtP hashKeyOK store (mkTreeObject raw store).2 := by
  unfold mkTreeObject
  exact storeExtP_mapSet _ ⟨rfl, rfl⟩

theorem ctAux_ext_hash :
    ∀ (fuel : Nat) (ch : List (String × PNode)) (store : List (String × AnyGitObject)),
      StoreExtP hashKeyOK store (ctAux fuel ch store).2 := by
  intro fuel
  induction fuel with
  | zero => intro ch store; exact storeExtP_refl _ _
  | succ f ih =>
    intro ch store
    match ch with
    | [] => exact storeExtP_refl _ _
    | (name, PNode.mk (some h) chh) :: rest =>
      rcases hrec : ctAux f rest store with ⟨es, st'⟩
      have hx := ih rest store
      rw [hrec] at hx
      simp only [ctAux, hrec]
      exact hx
    | (name, PNode.mk none chh) :: rest =>
      rcases h1 : ctAux f chh store with ⟨raw, st1⟩
      rcases h2 : mkTreeObject raw st1 with ⟨sub, st2⟩
      rcases h3 : ctAux f rest st2 with ⟨es, st3⟩
      have e1 := ih chh store
      rw [h1] at e1
      have e2 := mkTreeObject_ext_hash raw st1
      rw [h2] at e2
      have e3 := ih rest st2
      rw [h3] at e3
      simp only [ctAux, h1, h2, h3]
      exact storeExtP_trans (storeExtP_trans e1 e2) e3

theorem buildTreeFromPaths_ext_hash (fh : List (String × String))
    (store : List (String × AnyGitObject)) :
    StoreExtP hashKeyOK store (buildTreeFromPaths fh store).2 := by
  unfold buildTreeFromPaths createTreeNode
  rcases h1 : ctAux (buildTreeFuel fh)
      (fh.foldl (fun r p => insertParts r (splitOnChar '/' p.1) p.2) (PNode.mk none [])).children
      store with ⟨raw, st1⟩
  have e1 := ctAux_ext_hash (buildTreeFuel fh)
    (fh.foldl (fun r p => insertParts r (splitOnChar '/' p.1) p.2) (PNode.mk none [])).children
    store
  rw [h1] at e1
  simp only [h1]
  exact storeExtP_trans e1 (mkTreeObject_ext_hash raw st1)

set_option maxHeartbeats 1000000 in
theorem commit_store_ext {P : String → AnyGitObject → Prop}
    (hblob : ∀ c, P (hashObject (.blob "" c)) (createBlob c))
    (hbuild : ∀ fh store, StoreExtP P store (buildTreeFromPaths fh store).2)
    (hcommitObj : ∀ t ps m a ts,
      P (hashObject (.commit "" t ps m a ts))
        (.commit (hashObject (.commit "" t ps m a ts)) t ps m a ts))
    (compile : String → Option (String → Bool)) (s : VirtualFileSystem)
    (msg author : String) (par : Option (List String)) (now : Nat) :
    StoreExtP P s.store (commit compile s msg author par now).1.store := by
  unfold commit
  rcases hF : s.workingFiles.foldl
      (fun (acc : List (String × String) × List (String × AnyGitObject)) p =>
        let relPath := relativePath s.rootDir p.1
        let ignored := match loadGitIgnore compile s with
          | some gi => ignores gi relPath
          | none => false
        if ignored then acc
        else
          let blob := createBlob p.2.content
          (mapSet acc.1 relPath blob.hash, mapSet acc.2 blob.hash blob))
      ([], s.store) with ⟨fh, st1⟩
  have e1 : StoreExtP P s.store st1 := by
    have := storeExtP_foldl P Prod.snd
      (fun (acc : List (String × String) × List (String × AnyGitObject)) p =>
        let relPath := relativePath s.rootDir p.1
        let ignored := match loadGitIgnore compile s with
          | some gi => ignores gi relPath
          | none => false
        if ignored then acc
        else
          let blob := createBlob p.2.content
          (mapSet acc.1 relPath blob.hash, mapSet acc.2 blob.hash blob))
      (fun acc p => by
        show StoreExtP P acc.2
          ((if (match loadGitIgnore compile s with
              | some gi => ignores gi (relativePath s.rootDir p.1)
              | none => false) then acc
            else (mapSet acc.1 (relativePath s.rootDir p.1) (createBlob p.2.content).hash,
                  mapSet acc.2 (createBlob p.2.content).hash (createBlob p.2.content))).2)
        split
        · exact storeExtP_refl _ _
        · exact storeExtP_mapSet _ (hblob p.2.content))
      s.workingFiles ([], s.store)
    rw [hF] at this
    exact this
  rcases hB : buildTreeFromPaths fh st1 with ⟨rt, st2⟩
  have e2 : StoreExtP P st1 st2 := by
    have := hbuild fh st1
    rw [hB] at this
    exact this
  simp only [hF, hB, updateRef_store]
  refine storeExtP_trans (storeExtP_trans e1 e2) ?_
  exact storeExtP_mapSet _ (hcommitObj _ _ _ _ _)

theorem hashKeyOK_blob (c : String) :
    hashKeyOK (hashObject (.blob "" c)) (createBlob c) := ⟨rfl, rfl⟩

set_option maxHeartbeats 2000000 in
theorem hashKeyOK_commitObj (t : String) (ps : List String) (m a : String) (ts : Nat) :
    hashKeyOK (hashObject (.commit "" t ps m a ts))
      (.commit (hashObject (.commit "" t ps m a ts)) t ps m a ts) := ⟨rfl, rfl⟩

/-! ## Claim C1 -/

/-- Claim C1: the hash of every object kind is the SHA-1 hex digest of
the `"<type> <byte-length>\0"` header concatenated with the serialized
content exactly as the spec describes it (first conjunct); consequently
equal serialized bytes of equal-kind objects yield equal hashes (second
conjunct); and every object `commit` adds to the store is keyed by that
hash, which also equals the object's own `hash` field (third conjunct). -/
theorem hashObject_spec :
    (∀ o : AnyGitObject, hashObject o = specHash o) ∧
    (∀ o₁ o₂ : AnyGitObject, o₁.typeName = o₂.typeName →
      specSerializedContent o₁ = specSerializedContent o₂ →
      hashObject o₁ = hashObject o₂) ∧
    (∀ (compile : String → Option (String → Bool)) (s : VirtualFileSystem)
      (msg author : String) (par : Option (List String)) (now : Nat)
      (k : String) (o : AnyGitObject),
      mapGet (commit compile s msg author par now).1.store k = some o →
      mapGet s.store k = some o ∨ (k = hashObject o ∧ o.hash = k)) := by
  refine ⟨hashObject_eq_specHash, ?_, ?_⟩
  · intro o₁ o₂ h1 h2
    rw [hashObject_eq_specHash o₁, hashObject_eq_specHash o₂]
    simp only [specHash, h1, h2]
  · intro compile s msg author par now
    exact @commit_store_ext hashKeyOK hashKeyOK_blob
      buildTreeFromPaths_ext_hash hashKeyOK_commitObj
      compile s msg author par now

/-- Witness for claim C1 (second conjunct) at concrete objects: two blobs
with different stale `hash` fields but the same serialized content get
the same recomputed hash. -/
theorem hashObject_spec_witness :
    hashObject (.blob "aaa" "x") = hashObject (.blob "bbb" "x") :=
  hashObject_spec.2.1 (.blob "aaa" "x") (.blob "bbb" "x") rfl rfl

/-! ## Claim C9 -/

theorem foldl_skip_filter (p : String) :
    ∀ (pats : List ((String → Bool) × Bool)) (init : Bool),
      pats.foldl (fun ignored pr => if pr.1 p then !pr.2 else ignored) init =
        (pats.filter (fun pr => pr.1 p)).foldl (fun _ pr => !pr.2) init := by
  intro pats
  induction pats with
  | nil => intro init; rfl
  | cons q rest ih =>
    intro init
    cases hq : q.1 p with
    | true =>
      simp only [List.foldl_cons, List.filter_cons, hq, if_true]
      exact ih _
    | false =>
      simp only [List.foldl_cons, List.filter_cons, hq, Bool.false_eq_true, if_false]
      exact ih _

theorem getLast?_cons_ne_none {β : Type} (y : β) (ys : List β) :
    (y :: ys).getLast? ≠ none := by
  induction ys generalizing y with
  | nil => simp
  | cons z zs ih =>
    rw [List.getLast?_cons_cons]
    exact ih z

theorem foldl_last_wins {β : Type} (g : β → Bool) :
    ∀ (l : List β) (init : Bool),
      l.foldl (fun _ x => g x) init =
        (match l.getLast? with
          | some x => g x
          | none => init) := by
  intro l
  induction l with
  | nil => intro init; rfl
  | cons x xs ih =>
    intro init
    cases xs with
    | nil => rfl
    | cons y ys =>
      simp only [List.foldl_cons]
      have hthis := ih (g x)
      simp only [List.foldl_cons] at hthis
      rw [hthis, List.getLast?_cons_cons]
      rcases hl : (y :: ys).getLast? with _ | z
      · exact absurd hl (getLast?_cons_ne_none y ys)
      · simp [hl]

theorem parseGitIgnore_filterMap (compile : String → Option (String → Bool))
    (content : String) :
    parseGitIgnore compile content =
      (content.split (· == '\n')).filterMap (lineToPattern compile) := by
  unfold parseGitIgnore
  suffices H : ∀ (lines : List String) (acc : List ((String → Bool) × Bool)),
      lines.foldl
        (fun pats rawLine =>
          let line := rawLine.trim
          if line = "" || line.startsWith "#" then pats
          else
            let negative := line.startsWith "!"
            let body := if negative then line.drop 1 else line
            match compile (globToRegex body) with
            | some m => pats ++ [(m, negative)]
            | none => pats)
        acc = acc ++ lines.filterMap (lineToPattern compile) by
    simpa using H (content.split (· == '\n')) []
  intro lines
  induction lines with
  | nil => intro acc; simp
  | cons l ls ih =>
    intro acc
    simp only [List.foldl_cons]
    have hstep : (let line := l.trim
        if line = "" || line.startsWith "#" then acc
        else
          let negative := line.startsWith "!"
          let body := if negative then line.drop 1 else line
          match compile (globToRegex body) with
          | some m => acc ++ [(m, negative)]
          | none => acc) =
        acc ++ (lineToPattern compile l).toList := by
      simp only [lineToPattern]
      split
      · simp
      · rcases hc : compile (globToRegex
            (if l.trim.startsWith "!" = true then l.trim.drop 1 else l.trim)) with _ | m
        · simp [hc]
        · simp [hc]
    rw [hstep]
    cases hl : lineToPattern compile l with
    | none =>
      have h2 : List.filterMap (lineToPattern compile) (l :: ls) =
          List.filterMap (lineToPattern compile) ls := by
        simp [List.filterMap_cons, hl]
      have h3 : acc ++ (none : Option ((String → Bool) × Bool)).toList = acc := by simp
      rw [h2, h3]
      exact ih acc
    | some pr =>
      have h2 : List.filterMap (lineToPattern compile) (l :: ls) =
          pr :: List.filterMap (lineToPattern compile) ls := by
        simp [List.filterMap_cons, hl]
      have h3 : acc ++ (some pr).toList = acc ++ [pr] := by simp
      rw [h2, h3, ih (acc ++ [pr])]
      simp

/-- Claim C9: `ignores` returns the verdict of the last pattern in file
order whose compiled matcher matches the path (ignored unless the pattern
is negated) and `false` when none matches (first conjunct); and parsing
contributes nothing for blank lines, `#` comment lines, and patterns that
fail to compile, and one compiled matcher with its `!` flag for every
other line (second conjunct) — so an invalid pattern is skipped without
failing the call.  Stated for every matcher semantics `compile`. -/
theorem gitIgnore_last_match_wins :
    ∀ (compile : String → Option (String → Bool)) (content p : String),
      ignores (parseGitIgnore compile content) p =
        lastMatchVerdict (parseGitIgnore compile content) p ∧
      parseGitIgnore compile content =
        (content.split (· == '\n')).filterMap (lineToPattern compile) := by
  intro compile content p
  refine ⟨?_, parseGitIgnore_filterMap compile content⟩
  unfold ignores lastMatchVerdict
  rw [foldl_skip_filter, foldl_last_wins]
  cases hx : (List.filter (fun pr => pr.1 p) (parseGitIgnore compile content)).getLast? <;>
    rfl

/-! ## Claim C10 -/

theorem logLoop_eq_firstParentChain (store : List (String × AnyGitObject))
    (hnil : mapGet store "" = none) :
    ∀ (fuel : Nat) (h : String),
      logLoop store fuel h = firstParentChain store fuel h := by
  intro fuel
  induction fuel with
  | zero => intro h; rfl
  | succ f ih =>
    intro h
    by_cases hh : h = ""
    · subst hh
      simp [logLoop, firstParentChain, hnil]
    · simp only [logLoop, firstParentChain, if_neg hh]
      cases hg : mapGet store h with
      | none => rfl
      | some o =>
        cases o with
        | blob _ _ => rfl
        | tree _ _ => rfl
        | commit hh' t ps m a ts =>
          simp only []
          cases ps with
          | nil =>
            simp only [List.headD]
            rw [ih ""]
            cases f with
            | zero => rfl
            | succ f' => simp [firstParentChain, hnil]
          | cons p rest =>
            simp only [List.headD]
            rw [ih p]

/-- Claim C10: `log` returns exactly the chain obtained by resolving
`HEAD` and then repeatedly following only the first parent of each commit
until an empty parent list or a hash not naming a stored commit is
reached; commits reachable only through later parents never appear.
(The hypothesis rules out a store keyed by the empty string, which no
hash can be.) -/
theorem log_first_parent_chain :
    ∀ (s : VirtualFileSystem) (fuel : Nat),
      mapGet s.store "" = none →
      log fuel s = firstParentChain s.store fuel ((resolveRef s s.HEAD).getD "") := by
  intro s fuel hnil
  unfold log
  cases hr : resolveRef s s.HEAD with
  | none =>
    simp only [Option.getD]
    cases fuel with
    | zero => rfl
    | succ f => simp [firstParentChain, hnil]
  | some h =>
    simp only [Option.getD]
    exact logLoop_eq_firstParentChain s.store hnil fuel h

/-- Witness for claim C10 at a concrete state: the log of a merge commit
follows only the first-parent chain (`h2`, `h1`) and never shows the
second parent `hx`. -/
theorem log_first_parent_chain_witness :
    log 5 c10WitnessState =
      firstParentChain c10WitnessState.store 5
        ((resolveRef c10WitnessState c10WitnessState.HEAD).getD "") :=
  log_first_parent_chain c10WitnessState 5 (by decide)
/-! ## BFS lemmas for the merge base (claim C2) -/

theorem find?_eq_none_of_allfalse {p : String → Bool} :
    ∀ (l : List String), (∀ x ∈ l, p x = false) → l.find? p = none := by
  intro l
  induction l with
  | nil => intro _; rfl
  | cons a rest ih =>
    intro hall
    rw [List.find?_cons]
    rw [hall a (by simp)]
    exact ih (fun x hx => hall x (by simp [hx]))

theorem find?_append_of_allfalse {p : String → Bool} :
    ∀ (l₁ l₂ : List String), (∀ x ∈ l₁, p x = false) →
      List.find? p (l₁ ++ l₂) = List.find? p l₂ := by
  intro l₁
  induction l₁ with
  | nil => intro l₂ _; rfl
  | cons a rest ih =>
    intro l₂ hall
    rw [List.cons_append, List.find?_cons]
    rw [hall a (by simp)]
    exact ih l₂ (fun x hx => hall x (by simp [hx]))

theorem getAncestorsAux_prefix (store : List (String × AnyGitObject)) :
    ∀ (fuel : Nat) (q vis : List String),
      ∃ t, getAncestorsAux store fuel q vis = vis ++ t := by
  intro fuel
  induction fuel with
  | zero =>
    intro q vis
    exact ⟨[], by simp [getAncestorsAux]⟩
  | succ f ih =>
    intro q vis
    cases q with
    | nil => exact ⟨[], by simp [getAncestorsAux]⟩
    | cons h queue =>
      by_cases hv : h ∈ vis
      · simpa [getAncestorsAux, hv] using ih queue vis
      · obtain ⟨t, ht⟩ := ih (queue ++ parentsOf store h) (vis ++ [h])
        exact ⟨[h] ++ t, by simp [getAncestorsAux, hv, ht]⟩

theorem findMergeBaseAux_eq_find (store : List (String × AnyGitObject))
    (anc : List String) :
    ∀ (fuel : Nat) (q vis : List String), (∀ v ∈ vis, v ∉ anc) →
      findMergeBaseAux store anc fuel q vis =
        (getAncestorsAux store fuel q vis).find? (fun h => decide (h ∈ anc)) := by
  intro fuel
  induction fuel with
  | zero =>
    intro q vis hinv
    simp only [findMergeBaseAux, getAncestorsAux]
    exact (find?_eq_none_of_allfalse vis
      (fun x hx => by simp [hinv x hx])).symm
  | succ f ih =>
    intro q vis hinv
    cases q with
    | nil =>
      simp only [findMergeBaseAux, getAncestorsAux]
      exact (find?_eq_none_of_allfalse vis
        (fun x hx => by simp [hinv x hx])).symm
    | cons h queue =>
      by_cases hanc : h ∈ anc
      · have hnv : h ∉ vis := fun hv => (hinv h hv) hanc
        simp only [findMergeBaseAux, getAncestorsAux, if_pos hanc, if_neg hnv]
        obtain ⟨t, ht⟩ := getAncestorsAux_prefix store f
          (queue ++ parentsOf store h) (vis ++ [h])
        rw [ht, List.append_assoc]
        rw [find?_append_of_allfalse vis _ (fun x hx => by simp [hinv x hx])]
        simp [List.find?_cons, hanc]
      · by_cases hv : h ∈ vis
        · simp only [findMergeBaseAux, getAncestorsAux, if_neg hanc, if_pos hv]
          exact ih queue vis hinv
        · simp only [findMergeBaseAux, getAncestorsAux, if_neg hanc, if_neg hv]
          refine ih (queue ++ parentsOf store h) (vis ++ [h]) ?_
          intro v hvv
          rcases List.mem_append.mp hvv with hh | hh
          · exact hinv v hh
          · rw [List.mem_singleton.mp hh]
            exact hanc

/-! ## Claim C2 -/

/-- Claim C2: `findMergeBase ours theirs` returns exactly the first hash
in the BFS visit order from `theirs` (through parent lists) that lies in
the BFS-collected ancestor set of `ours` (which includes `ours` itself) —
`none` when the search exhausts (first conjunct); and when the two
resolved heads differ and no such base exists, `merge` fails with the
unrelated-histories error (second conjunct). -/
theorem findMergeBase_bfs_spec :
    (∀ (store : List (String × AnyGitObject)) (fuel : Nat) (ours theirs : String),
      findMergeBase store fuel ours theirs =
        (bfsOrder store fuel theirs).find?
          (fun h => decide (h ∈ getAncestors store fuel ours))) ∧
    (∀ (compile : String → Option (String → Bool)) (fuel : Nat)
      (s : VirtualFileSystem) (branch : String) (now : Nat) (th ou : String),
      jsTruthy (resolveRef s branch) = some th →
      jsTruthy (resolveRef s s.HEAD) = some ou →
      ou ≠ th →
      findMergeBase s.store fuel ou th = none →
      merge compile fuel s branch now =
        .error "Refusing to merge unrelated histories") := by
  constructor
  · intro store fuel ours theirs
    unfold findMergeBase bfsOrder
    exact findMergeBaseAux_eq_find store (getAncestors store fuel ours) fuel
      [theirs] [] (by intro v hv; simp at hv)
  · intro compile fuel s branch now th ou h1 h2 hne hmb
    unfold merge
    rw [h1, h2]
    simp [hne, hmb]

/-- Witness for claim C2 at a concrete state: merging two unrelated root
commits fails with the unrelated-histories error. -/
theorem findMergeBase_bfs_spec_witness :
    merge (fun _ => none) 4 c2WitnessState "b" 0 =
      .error "Refusing to merge unrelated histories" :=
  findMergeBase_bfs_spec.2 (fun _ => none) 4 c2WitnessState "b" 0 "h2" "h1"
    (by decide) (by decide) (by decide) (by decide)

/-! ## Claim C5 -/

/-- Claim C5: saving a snapshot and loading it into a freshly constructed
engine reproduces the database dump exactly — same object sequence, same
references, same `HEAD` — and a working tree with the identical
(path, content) pairs, including uncommitted changes.  The hypotheses are
the `Map` invariants every engine state satisfies (unique keys, and each
working file stored under its own path). -/
theorem snapshot_roundtrip :
    ∀ (s : VirtualFileSystem) (root' : String),
      (s.store.map Prod.fst).Nodup →
      (s.refs.map Prod.fst).Nodup →
      (s.workingFiles.map Prod.fst).Nodup →
      (∀ p ∈ s.workingFiles, (p.2).path = p.1) →
      getDatabaseDump (loadFromDisk (initVFS root') (saveToDisk s)) =
        getDatabaseDump s ∧
      (loadFromDisk (initVFS root') (saveToDisk s)).workingFiles.map
          (fun p => ((p.2).path, (p.2).content)) =
        s.workingFiles.map (fun p => ((p.2).path, (p.2).content)) := by
  intro s root' hstore hrefs hwf hpaths
  have hkeyeq : s.workingFiles.map (fun p => (p.2).path) =
      s.workingFiles.map Prod.fst := by
    exact List.map_congr_left (fun p hp => hpaths p hp)
  constructor
  · simp only [getDatabaseDump, loadFromDisk, saveToDisk, initVFS]
    rw [mapFromPairs_eq_self s.store hstore, mapFromPairs_eq_self s.refs hrefs]
  · simp only [loadFromDisk, saveToDisk, initVFS]
    have hkeys2 : ((s.workingFiles.map
        (fun p => ((p.2).path, (p.2).content))).map Prod.fst).Nodup := by
      rw [List.map_map]
      have hx : s.workingFiles.map
          (Prod.fst ∘ fun p => ((p.2).path, (p.2).content)) =
          s.workingFiles.map Prod.fst :=
        List.map_congr_left (fun p hp => hpaths p hp)
      rw [hx]
      exact hwf
    have hfold :
        (s.workingFiles.map (fun p => ((p.2).path, (p.2).content))).foldl
            (fun wf p => mapSet wf p.1 ⟨p.1, p.2, 0⟩) [] =
          mapFromPairs ((s.workingFiles.map
            (fun p => ((p.2).path, (p.2).content))).map
            (fun p => (p.1, (⟨p.1, p.2, 0⟩ : VirtualFile)))) := by
      simp only [mapFromPairs, List.foldl_map]
    have hnd : ((((s.workingFiles.map
        (fun p => ((p.2).path, (p.2).content))).map
        (fun p => (p.1, (⟨p.1, p.2, 0⟩ : VirtualFile))))).map Prod.fst).Nodup := by
      rw [List.map_map]
      have hx : (s.workingFiles.map (fun p => ((p.2).path, (p.2).content))).map
          (Prod.fst ∘ fun p => (p.1, (⟨p.1, p.2, 0⟩ : VirtualFile))) =
          (s.workingFiles.map (fun p => ((p.2).path, (p.2).content))).map Prod.fst :=
        List.map_congr_left (fun q _ => rfl)
      rw [hx]
      exact hkeys2
    rw [hfold, mapFromPairs_eq_self _ hnd, List.map_map]
    have hx : (s.workingFiles.map (fun p => ((p.2).path, (p.2).content))).map
        ((fun p => ((p.2).path, (p.2).content)) ∘
          fun p => (p.1, (⟨p.1, p.2, 0⟩ : VirtualFile))) =
        (s.workingFiles.map (fun p => ((p.2).path, (p.2).content))).map id :=
      List.map_congr_left (fun q _ => rfl)
    rw [hx, List.map_id]

/-- Witness for claim C5 at a concrete state with a commit, two branches,
and an uncommitted working-file change. -/
theorem snapshot_roundtrip_witness :
    getDatabaseDump (loadFromDisk (initVFS "/x") (saveToDisk c5WitnessState)) =
      getDatabaseDump c5WitnessState ∧
    (loadFromDisk (initVFS "/x") (saveToDisk c5WitnessState)).workingFiles.map
        (fun p => ((p.2).path, (p.2).content)) =
      c5WitnessState.workingFiles.map (fun p => ((p.2).path, (p.2).content)) :=
  snapshot_roundtrip c5WitnessState "/x" (by decide) (by decide) (by decide)
    (by decide)
/-! ## The collation model is a total preorder -/

theorem leNatList_refl : ∀ l : List Nat, leNatList l l = true := by
  intro l
  induction l with
  | nil => rfl
  | cons a as ih => simp [leNatList, Nat.lt_irrefl, ih]

theorem leNatList_total : ∀ a b : List Nat, leNatList a b = true ∨ leNatList b a = true := by
  intro a
  induction a with
  | nil => intro b; left; rfl
  | cons x xs ih =>
    intro b
    cases b with
    | nil => right; rfl
    | cons y ys =>
      rcases Nat.lt_trichotomy x y with h | h | h
      · left; simp [leNatList, h]
      · subst h
        rcases ih ys with hh | hh
        · left; simp [leNatList, Nat.lt_irrefl, hh]
        · right; simp [leNatList, Nat.lt_irrefl, hh]
      · right; simp [leNatList, h]

theorem leNatList_trans : ∀ a b c : List Nat,
    leNatList a b = true → leNatList b c = true → leNatList a c = true := by
  intro a
  induction a with
  | nil => intro b c _ _; rfl
  | cons x xs ih =>
    intro b c hab hbc
    cases b with
    | nil => simp [leNatList] at hab
    | cons y ys =>
      cases c with
      | nil => simp [leNatList] at hbc
      | cons z zs =>
        simp only [leNatList] at hab hbc ⊢
        by_cases hxy : x < y
        · by_cases hyz : y < z
          · simp [Nat.lt_trans hxy hyz]
          · by_cases hzy : z < y
            · simp [hyz, hzy] at hbc
            · have heq : y = z := Nat.le_antisymm (Nat.not_lt.mp hzy) (Nat.not_lt.mp hyz)
              subst heq
              simp [hxy]
        · by_cases hyx : y < x
          · simp [hxy, hyx] at hab
          · have heq : x = y := Nat.le_antisymm (Nat.not_lt.mp hyx) (Nat.not_lt.mp hxy)
            subst heq
            simp only [Nat.lt_irrefl, if_false] at hab
            by_cases hyz : x < z
            · simp [hyz]
            · by_cases hzy : z < x
              · simp [hyz, hzy] at hbc
              · have heq2 : x = z := Nat.le_antisymm (Nat.not_lt.mp hzy) (Nat.not_lt.mp hyz)
                subst heq2
                simp only [Nat.lt_irrefl, if_false] at hbc ⊢
                exact ih ys zs hab hbc

theorem localeCompare_le_iff (a b : String) :
    localeCompare a b ≤ 0 ↔ leNatList (locKey a) (locKey b) = true := by
  unfold localeCompare
  by_cases he : locKey a = locKey b
  · simp [he, leNatList_refl]
  · by_cases hle : leNatList (locKey a) (locKey b) = true
    · simp [he, hle]
    · simp [he, hle]

theorem localeCompare_total (a b : String) :
    localeCompare a b ≤ 0 ∨ localeCompare b a ≤ 0 := by
  rw [localeCompare_le_iff, localeCompare_le_iff]
  exact leNatList_total _ _

theorem localeCompare_trans (a b c : String)
    (h1 : localeCompare a b ≤ 0) (h2 : localeCompare b c ≤ 0) :
    localeCompare a c ≤ 0 := by
  rw [localeCompare_le_iff] at h1 h2 ⊢
  exact leNatList_trans _ _ _ h1 h2

/-! ## The sort model produces sorted permutations -/

theorem mem_insertCmp {α : Type} (cmp : α → α → Int) (a : α) :
    ∀ (l : List α) (x : α), x ∈ insertCmp cmp a l ↔ x = a ∨ x ∈ l := by
  intro l
  induction l with
  | nil => intro x; simp [insertCmp]
  | cons b bs ih =>
    intro x
    by_cases h : cmp a b ≤ 0
    · simp [insertCmp, h]
    · simp [insertCmp, h, ih]
      tauto

theorem perm_insertCmp {α : Type} (cmp : α → α → Int) (a : α) :
    ∀ l : List α, (insertCmp cmp a l).Perm (a :: l) := by
  intro l
  induction l with
  | nil => simp [insertCmp]
  | cons b bs ih =>
    by_cases h : cmp a b ≤ 0
    · simp [insertCmp, h]
    · simp only [insertCmp, if_neg h]
      exact (List.Perm.cons b ih).trans (List.Perm.swap a b bs)

theorem perm_sortCmp {α : Type} (cmp : α → α → Int) :
    ∀ l : List α, (sortCmp cmp l).Perm l := by
  intro l
  induction l with
  | nil => exact List.Perm.refl _
  | cons x xs ih =>
    simp only [sortCmp, List.foldr_cons]
    exact (perm_insertCmp cmp x _).trans (List.Perm.cons x ih)

theorem pairwise_insertCmp {α : Type} (cmp : α → α → Int)
    (htot : ∀ a b : α, cmp a b ≤ 0 ∨ cmp b a ≤ 0)
    (htrans : ∀ a b c : α, cmp a b ≤ 0 → cmp b c ≤ 0 → cmp a c ≤ 0) (a : α) :
    ∀ l : List α, l.Pairwise (fun x y => cmp x y ≤ 0) →
      (insertCmp cmp a l).Pairwise (fun x y => cmp x y ≤ 0) := by
  intro l
  induction l with
  | nil => intro _; simp [insertCmp]
  | cons b bs ih =>
    intro hp
    rcases List.pairwise_cons.mp hp with ⟨hb, hbs⟩
    by_cases h : cmp a b ≤ 0
    · simp only [insertCmp, if_pos h]
      refine List.Pairwise.cons ?_ hp
      intro y hy
      rcases List.mem_cons.mp hy with rfl | hy'
      · exact h
      · exact htrans a b y h (hb y hy')
    · simp only [insertCmp, if_neg h]
      refine List.Pairwise.cons ?_ (ih hbs)
      intro y hy
      rcases (mem_insertCmp cmp a bs y).mp hy with rfl | hy'
      · rcases htot y b with hab | hba
        · exact absurd hab h
        · exact hba
      · exact hb y hy'

theorem pairwise_sortCmp {α : Type} (cmp : α → α → Int)
    (htot : ∀ a b : α, cmp a b ≤ 0 ∨ cmp b a ≤ 0)
    (htrans : ∀ a b c : α, cmp a b ≤ 0 → cmp b c ≤ 0 → cmp a c ≤ 0) :
    ∀ l : List α, (sortCmp cmp l).Pairwise (fun x y => cmp x y ≤ 0) := by
  intro l
  induction l with
  | nil => simp [sortCmp]
  | cons x xs ih =>
    simp only [sortCmp, List.foldr_cons]
    exact pairwise_insertCmp cmp htot htrans x _ ih

/-! ## Well-formedness of the path trie -/

theorem PWF_inv {bh : Option String} {ch : List (String × PNode)}
    (h : PWF (.mk bh ch)) :
    (ch.map Prod.fst).Nodup ∧ ∀ p ∈ ch, PWF p.2 := by
  cases h with
  | mk _ _ h1 h2 => exact ⟨h1, h2⟩

theorem PWF_empty : PWF (.mk none []) :=
  PWF.mk _ _ (by simp) (fun x hx => absurd hx (by simp))

theorem PWF_leaf (h : String) : PWF (.mk (some h) []) :=
  PWF.mk _ _ (by simp) (fun x hx => absurd hx (by simp))

theorem PWF_insertParts :
    ∀ (parts : List String) (n : PNode) (h : String),
      PWF n → PWF (insertParts n parts h) := by
  intro parts
  induction parts with
  | nil =>
    intro n h hn
    cases n with
    | mk bh ch => simpa [insertParts] using hn
  | cons p rest ih =>
    intro n h hn
    cases rest with
    | nil =>
      cases n with
      | mk bh ch =>
        obtain ⟨hnd, hall⟩ := PWF_inv hn
        simp only [insertParts]
        refine PWF.mk _ _ (mapSet_keys_nodup _ _ hnd) ?_
        intro x hx
        rcases mem_mapSet hx with hm | hm
        · exact hall x hm
        · subst hm
          exact PWF_leaf h
    | cons q rest' =>
      cases n with
      | mk bh ch =>
        obtain ⟨hnd, hall⟩ := PWF_inv hn
        have hchild : PWF ((mapGet ch p).getD (.mk none [])) := by
          cases hg : mapGet ch p with
          | none => exact PWF_empty
          | some c => simpa using hall (p, c) (mapGet_mem hg)
        simp only [insertParts]
        refine PWF.mk _ _ (mapSet_keys_nodup _ _ hnd) ?_
        intro x hx
        rcases mem_mapSet hx with hm | hm
        · exact hall x hm
        · subst hm
          exact ih _ h hchild

theorem PWF_buildRoot (fh : List (String × String)) :
    PWF (fh.foldl (fun r p => insertParts r (splitOnChar '/' p.1) p.2)
      (PNode.mk none [])) := by
  suffices H : ∀ (l : List (String × String)) (n : PNode), PWF n →
      PWF (l.foldl (fun r p => insertParts r (splitOnChar '/' p.1) p.2) n) from
    H fh _ PWF_empty
  intro l
  induction l with
  | nil => intro n hn; exact hn
  | cons p rest ih =>
    intro n hn
    exact ih _ (PWF_insertParts _ _ _ hn)

/-! ## Trees stored by `ctAux` are collation-sorted with unique names -/

theorem ctAux_names_sublist :
    ∀ (fuel : Nat) (ch : List (String × PNode)) (store : List (String × AnyGitObject)),
      ((ctAux fuel ch store).1.map GitTreeEntry.name).Sublist (ch.map Prod.fst) := by
  intro fuel
  induction fuel with
  | zero => intro ch store; simp [ctAux]
  | succ f ih =>
    intro ch store
    match ch with
    | [] => simp [ctAux]
    | (name, PNode.mk (some h) chh) :: rest =>
      rcases hrec : ctAux f rest store with ⟨es, st'⟩
      have hx := ih rest store
      rw [hrec] at hx
      simp only [ctAux, hrec, List.map_cons]
      exact List.Sublist.cons₂ _ hx
    | (name, PNode.mk none chh) :: rest =>
      rcases h1 : ctAux f chh store with ⟨raw, st1⟩
      rcases h2 : mkTreeObject raw st1 with ⟨sub, st2⟩
      rcases h3 : ctAux f rest st2 with ⟨es, st3⟩
      have hx := ih rest st2
      rw [h3] at hx
      simp only [ctAux, h1, h2, h3, List.map_cons]
      exact List.Sublist.cons₂ _ hx

theorem mkTreeObject_ext_sorted (raw : List GitTreeEntry)
    (store : List (String × AnyGitObject))
    (hnd : (raw.map GitTreeEntry.name).Nodup) :
    StoreExtP treeSortedOK store (mkTreeObject raw store).2 := by
  unfold mkTreeObject
  apply storeExtP_mapSet
  refine ⟨?_, ?_⟩
  · exact pairwise_sortCmp _
      (fun a b => localeCompare_total a.name b.name)
      (fun a b c => localeCompare_trans a.name b.name c.name) raw
  · exact (List.Perm.nodup_iff
      ((perm_sortCmp (fun a b => localeCompare a.name b.name) raw).map
        GitTreeEntry.name)).mpr hnd

theorem ctAux_ext_sorted :
    ∀ (fuel : Nat) (ch : List (String × PNode)) (store : List (String × AnyGitObject)),
      (∀ p ∈ ch, PWF p.2) →
      StoreExtP treeSortedOK store (ctAux fuel ch store).2 := by
  intro fuel
  induction fuel with
  | zero => intro ch store _; exact storeExtP_refl _ _
  | succ f ih =>
    intro ch store hall
    match ch with
    | [] => exact storeExtP_refl _ _
    | (name, PNode.mk (some h) chh) :: rest =>
      rcases hrec : ctAux f rest store with ⟨es, st'⟩
      have hx := ih rest store (fun p hp => hall p (List.mem_cons_of_mem _ hp))
      rw [hrec] at hx
      simp only [ctAux, hrec]
      exact hx
    | (name, PNode.mk none chh) :: rest =>
      have hchild : PWF (.mk none chh) := by
        simpa using hall (name, PNode.mk none chh) (by simp)
      obtain ⟨hchnd, hchall⟩ := PWF_inv hchild
      rcases h1 : ctAux f chh store with ⟨raw, st1⟩
      rcases h2 : mkTreeObject raw st1 with ⟨sub, st2⟩
      rcases h3 : ctAux f rest st2 with ⟨es, st3⟩
      have e1 := ih chh store hchall
      rw [h1] at e1
      have hrawnd : (raw.map GitTreeEntry.name).Nodup := by
        have hsub := ctAux_names_sublist f chh store
        rw [h1] at hsub
        exact List.Nodup.sublist hsub hchnd
      have e2 := mkTreeObject_ext_sorted raw st1 hrawnd
      rw [h2] at e2
      have e3 := ih rest st2 (fun p hp => hall p (List.mem_cons_of_mem _ hp))
      rw [h3] at e3
      simp only [ctAux, h1, h2, h3]
      exact storeExtP_trans (storeExtP_trans e1 e2) e3

theorem buildTreeFromPaths_ext_sorted (fh : List (String × String))
    (store : List (String × AnyGitObject)) :
    StoreExtP treeSortedOK store (buildTreeFromPaths fh store).2 := by
  unfold buildTreeFromPaths createTreeNode
  have hroot := PWF_buildRoot fh
  rcases hchil : (fh.foldl (fun r p => insertParts r (splitOnChar '/' p.1) p.2)
      (PNode.mk none [])) with ⟨bh, ch⟩
  rw [hchil] at hroot
  obtain ⟨hnd, hall⟩ := PWF_inv hroot
  rcases h1 : ctAux (buildTreeFuel fh) (PNode.mk bh ch).children store with ⟨raw, st1⟩
  have e1 := ctAux_ext_sorted (buildTreeFuel fh) (PNode.mk bh ch).children store hall
  rw [h1] at e1
  have hrawnd : (raw.map GitTreeEntry.name).Nodup := by
    have hsub := ctAux_names_sublist (buildTreeFuel fh) (PNode.mk bh ch).children store
    rw [h1] at hsub
    exact List.Nodup.sublist hsub hnd
  simp only [hchil, h1]
  exact storeExtP_trans e1 (mkTreeObject_ext_sorted raw st1 hrawnd)

/-! ## Claim C4 (corrected) -/

/-- Amended claim C4: every tree object `commit` adds to the store has
its entry list sorted ascending by the default-locale collation
(`localeCompare`, as modelled here) on the raw name string, with no
duplicate names.  For names where the collation agrees with raw
code-point order (for example all-lowercase ASCII names) this coincides
with the original claim's raw lexicographic order, but not in general
(see the counterexample for names `"a"` and `"B"`). -/
theorem commit_tree_entries_locale_sorted :
    ∀ (compile : String → Option (String → Bool)) (s : VirtualFileSystem)
      (msg author : String) (par : Option (List String)) (now : Nat)
      (k h : String) (entries : List GitTreeEntry),
      mapGet (commit compile s msg author par now).1.store k = some (.tree h entries) →
      mapGet s.store k = some (.tree h entries) ∨
      (entries.Pairwise (fun a b => localeCompare a.name b.name ≤ 0) ∧
        (entries.map GitTreeEntry.name).Nodup) := by
  intro compile s msg author par now k h entries hget
  rcases @commit_store_ext treeSortedOK (fun c => True.intro)
      buildTreeFromPaths_ext_sorted (fun t ps m a ts => True.intro)
      compile s msg author par now k _ hget with hold | hP
  · exact Or.inl hold
  · exact Or.inr hP

set_option maxRecDepth 100000 in
/-- Witness for the amended claim C4 at a concrete two-file state: the
committed tree object is present in the store, and the theorem instance
yields the sortedness disjunction for its entry list. -/
theorem commit_tree_entries_locale_sorted_witness :
    mapGet (commit (fun _ => none) c4CexState "c" "User" none 0).1.store
        "9f6e118f1fdb0fff0d8a97644c60503a18517aa3" =
      some (.tree "9f6e118f1fdb0fff0d8a97644c60503a18517aa3"
        [⟨"100644", "blob", "d8263ee9860594d2806b0dfd1bfd17528b0ba2a4", "a"⟩,
         ⟨"100644", "blob", "56a6051ca2b02b04ef92d5150c9ef600403cb1de", "B"⟩]) ∧
    (mapGet c4CexState.store "9f6e118f1fdb0fff0d8a97644c60503a18517aa3" =
        some (.tree "9f6e118f1fdb0fff0d8a97644c60503a18517aa3"
          [⟨"100644", "blob", "d8263ee9860594d2806b0dfd1bfd17528b0ba2a4", "a"⟩,
           ⟨"100644", "blob", "56a6051ca2b02b04ef92d5150c9ef600403cb1de", "B"⟩]) ∨
      ([(⟨"100644", "blob", "d8263ee9860594d2806b0dfd1bfd17528b0ba2a4", "a"⟩ :
            GitTreeEntry),
          ⟨"100644", "blob", "56a6051ca2b02b04ef92d5150c9ef600403cb1de", "B"⟩].Pairwise
          (fun a b => localeCompare a.name b.name ≤ 0) ∧
        (([(⟨"100644", "blob", "d8263ee9860594d2806b0dfd1bfd17528b0ba2a4", "a"⟩ :
            GitTreeEntry),
          ⟨"100644", "blob", "56a6051ca2b02b04ef92d5150c9ef600403cb1de", "B"⟩]).map
          GitTreeEntry.name).Nodup)) :=
  ⟨by decide,
    commit_tree_entries_locale_sorted (fun _ => none) c4CexState "c" "User"
      none 0 "9f6e118f1fdb0fff0d8a97644c60503a18517aa3"
      "9f6e118f1fdb0fff0d8a97644c60503a18517aa3"
      [⟨"100644", "blob", "d8263ee9860594d2806b0dfd1bfd17528b0ba2a4", "a"⟩,
       ⟨"100644", "blob", "56a6051ca2b02b04ef92d5150c9ef600403cb1de", "B"⟩]
      (by decide)⟩

set_option maxRecDepth 100000 in
/-- Counterexample to claim C4 as stated: committing working files named
`"B"` and `"a"` produces exactly one tree object, whose entry names are
ordered `["a", "B"]` by the locale collation — an order that is not
strictly ascending lexicographically on the raw name strings, because
`"a"` before `"B"` is false in raw code-point order. -/
theorem commit_tree_entries_not_lex_sorted :
    ((commit (fun _ => none) c4CexState "c" "User" none 0).1.store.filterMap
        (fun p => match p.2 with
          | AnyGitObject.tree _ es => some (es.map GitTreeEntry.name)
          | _ => none)) = [["a", "B"]] ∧
    ¬ List.Pairwise rawLexLt ["a", "B"] :=
  ⟨by decide, by decide⟩

/-! ## The three-way merge loop (claim C3) -/

theorem jsSetList_nodup (l : List String) : (jsSetList l).Nodup := by
  suffices H : ∀ (l acc : List String), acc.Nodup →
      (l.foldl (fun acc x => if x ∈ acc then acc else acc ++ [x]) acc).Nodup from
    H l [] (by simp)
  intro l
  induction l with
  | nil => intro acc h; exact h
  | cons x xs ih =>
    intro acc h
    simp only [List.foldl_cons]
    by_cases hx : x ∈ acc
    · simp only [if_pos hx]
      exact ih acc h
    · simp only [if_neg hx]
      refine ih _ ?_
      simp [List.nodup_append, h, hx]

theorem twLoop_frame (store : List (String × AnyGitObject)) (root : String)
    (baseF ourF theirF : List (String × String)) :
    ∀ (ps : List String) (wf wf' : List (String × VirtualFile)),
      twLoop store root baseF ourF theirF ps wf = .ok wf' →
      ∀ a, (∀ p ∈ ps, a ≠ resolvePath root p) →
      mapGet wf' a = mapGet wf a := by
  intro ps
  induction ps with
  | nil =>
    intro wf wf' h a _
    simp only [twLoop] at h
    injection h with h
    rw [h]
  | cons q rest ih =>
    intro wf wf' hloop a ha
    have haq : a ≠ resolvePath root q := ha q (by simp)
    have harest : ∀ p ∈ rest, a ≠ resolvePath root p :=
      fun p hp => ha p (by simp [hp])
    by_cases hOT : mapGet ourF q = mapGet theirF q
    · simp only [twLoop, if_pos hOT] at hloop
      exact ih wf wf' hloop a harest
    · by_cases hBO : mapGet baseF q = mapGet ourF q
      · simp only [twLoop, if_neg hOT, if_pos hBO] at hloop
        cases hT : jsTruthy (mapGet theirF q) with
        | some t =>
          simp only [hT] at hloop
          cases hS : mapGet store t with
          | none =>
            simp only [hS] at hloop
            exact ih _ _ hloop a harest
          | some o =>
            simp only [hS] at hloop
            cases o with
            | blob bh2 c =>
              rw [ih _ _ hloop a harest]
              exact mapGet_mapSet_ne _ _ _ _ haq
            | tree th2 es => exact ih _ _ hloop a harest
            | commit ch2 t2 ps2 m2 a2 ts2 => exact ih _ _ hloop a harest
        | none =>
          simp only [hT] at hloop
          rw [ih _ _ hloop a harest]
          exact mapGet_mapDelete_ne _ _ _ haq
      · by_cases hBT : mapGet baseF q = mapGet theirF q
        · simp only [twLoop, if_neg hOT, if_neg hBO, if_pos hBT] at hloop
          exact ih _ _ hloop a harest
        · simp only [twLoop, if_neg hOT, if_neg hBO, if_neg hBT] at hloop
          exact absurd hloop (by simp)

theorem twLoop_main (store : List (String × AnyGitObject)) (root : String)
    (baseF ourF theirF : List (String × String)) :
    ∀ (ps : List String) (wf : List (String × VirtualFile)),
      ps.Nodup →
      (∀ p ∈ ps, ∀ q ∈ ps, p ≠ q → resolvePath root p ≠ resolvePath root q) →
      (∀ p ∈ ps, mapGet theirF p ≠ some "") →
      (∀ p ∈ ps, (mapGet theirF p).all (fun t => isStoredBlob store t) = true) →
      match ps.find? (fun p => threeWayDivergent baseF ourF theirF p) with
      | some p₀ => twLoop store root baseF ourF theirF ps wf =
          .error ("Merge conflict in " ++ p₀)
      | none => ∃ wf', twLoop store root baseF ourF theirF ps wf = .ok wf' ∧
          ∀ p ∈ ps, twPost store root baseF ourF theirF wf wf' p := by
  intro ps
  induction ps with
  | nil =>
    intro wf _ _ _ _
    exact ⟨wf, rfl, fun p hp => absurd hp (by simp)⟩
  | cons q rest ih =>
    intro wf hnd hinj hne hblobs
    have hndq : q ∉ rest := (List.nodup_cons.mp hnd).1
    have hndrest : rest.Nodup := (List.nodup_cons.mp hnd).2
    have hinjrest : ∀ p ∈ rest, ∀ r ∈ rest, p ≠ r →
        resolvePath root p ≠ resolvePath root r :=
      fun p hp r hr => hinj p (by simp [hp]) r (by simp [hr])
    have hnerest : ∀ p ∈ rest, mapGet theirF p ≠ some "" :=
      fun p hp => hne p (by simp [hp])
    have hblobsrest : ∀ p ∈ rest,
        (mapGet theirF p).all (fun t => isStoredBlob store t) = true :=
      fun p hp => hblobs p (by simp [hp])
    have hresq : ∀ p ∈ rest, resolvePath root q ≠ resolvePath root p := by
      intro p hp
      refine hinj q (by simp) p (by simp [hp]) ?_
      intro hqp
      subst hqp
      exact hndq hp
    by_cases hdiv : threeWayDivergent baseF ourF theirF q = true
    · rw [List.find?_cons_of_pos _ hdiv]
      simp only [threeWayDivergent, Bool.and_eq_true, decide_eq_true_eq] at hdiv
      obtain ⟨⟨hOT, hBO⟩, hBT⟩ := hdiv
      simp only [twLoop, if_neg hOT, if_neg hBO, if_neg hBT]
    · rw [List.find?_cons_of_neg _ hdiv]
      simp only [threeWayDivergent, Bool.and_eq_true, decide_eq_true_eq] at hdiv
      by_cases hOT : mapGet ourF q = mapGet theirF q
      · -- equal sides: the loop keeps wf
        have H := ih wf hndrest hinjrest hnerest hblobsrest
        cases hfind : rest.find? (fun p => threeWayDivergent baseF ourF theirF p) with
        | some p₀ =>
          rw [hfind] at H
          simp only [twLoop, if_pos hOT]
          exact H
        | none =>
          rw [hfind] at H
          obtain ⟨wf', heq, hposts⟩ := H
          refine ⟨wf', by simp only [twLoop, if_pos hOT]; exact heq, ?_⟩
          intro p hp
          rcases List.mem_cons.mp hp with rfl | hp'
          · have hframe := twLoop_frame store root baseF ourF theirF rest wf wf'
              heq (resolvePath root p) (hresq)
            exact ⟨fun _ => hframe, fun h _ => absurd hOT h,
              fun h _ _ => absurd hOT h⟩
          · exact hposts p hp'
      · by_cases hBO : mapGet baseF q = mapGet ourF q
        · -- take theirs
          cases hT : mapGet theirF q with
          | none =>
            have hOT2 := hOT
            rw [hT] at hOT2
            have H := ih (mapDelete wf (resolvePath root q)) hndrest hinjrest
              hnerest hblobsrest
            cases hfind : rest.find?
                (fun p => threeWayDivergent baseF ourF theirF p) with
            | some p₀ =>
              rw [hfind] at H
              simp only [twLoop, hT, if_neg hOT2, if_pos hBO, jsTruthy]
              exact H
            | none =>
              rw [hfind] at H
              obtain ⟨wf', heq, hposts⟩ := H
              refine ⟨wf', by
                simp only [twLoop, hT, if_neg hOT2, if_pos hBO, jsTruthy]
                exact heq, ?_⟩
              intro p hp
              rcases List.mem_cons.mp hp with rfl | hp'
              · have hframe := twLoop_frame store root baseF ourF theirF rest
                  (mapDelete wf (resolvePath root p)) wf' heq
                  (resolvePath root p) (hresq)
                refine ⟨fun h => absurd h hOT, fun _ _ => ⟨fun _ => ?_, ?_⟩,
                  fun _ h _ => absurd hBO h⟩
                · rw [hframe]
                  exact mapGet_mapDelete_self _ _
                · intro t bh2 c hsome _
                  rw [hT] at hsome
                  exact absurd hsome (by simp)
              · have hstep : mapGet (mapDelete wf (resolvePath root q))
                    (resolvePath root p) = mapGet wf (resolvePath root p) :=
                  mapGet_mapDelete_ne _ _ _ (fun hh => hresq p hp' hh.symm)
                obtain ⟨c1, c2, c3⟩ := hposts p hp'
                exact ⟨fun h => (c1 h).trans hstep, c2,
                  fun h1 h2 h3 => (c3 h1 h2 h3).trans hstep⟩
          | some t =>
            have htne : t ≠ "" := by
              intro hteq
              subst hteq
              exact hne q (by simp) hT
            have hblob := hblobs q (by simp)
            rw [hT] at hblob
            simp only [Option.all_some] at hblob
            have hSblob : ∃ bh2 c, mapGet store t = some (.blob bh2 c) := by
              unfold isStoredBlob at hblob
              cases hS : mapGet store t with
              | none => rw [hS] at hblob; simp at hblob
              | some o =>
                rw [hS] at hblob
                cases o with
                | blob bh2 c => exact ⟨bh2, c, rfl⟩
                | tree th2 es => simp at hblob
                | commit ch2 t2 ps2 m2 a2 ts2 => simp at hblob
            obtain ⟨bh2, c, hS⟩ := hSblob
            have H := ih (mapSet wf (resolvePath root q)
              ⟨resolvePath root q, c, 0⟩) hndrest hinjrest hnerest hblobsrest
            have hOT2 := hOT
            rw [hT] at hOT2
            cases hfind : rest.find?
                (fun p => threeWayDivergent baseF ourF theirF p) with
            | some p₀ =>
              rw [hfind] at H
              simp only [twLoop, hT, if_neg hOT2, if_pos hBO, jsTruthy,
                if_neg htne, hS]
              exact H
            | none =>
              rw [hfind] at H
              obtain ⟨wf', heq, hposts⟩ := H
              refine ⟨wf', by
                simp only [twLoop, hT, if_neg hOT2, if_pos hBO, jsTruthy,
                  if_neg htne, hS]
                exact heq, ?_⟩
              intro p hp
              rcases List.mem_cons.mp hp with rfl | hp'
              · have hframe := twLoop_frame store root baseF ourF theirF rest
                  (mapSet wf (resolvePath root p) ⟨resolvePath root p, c, 0⟩) wf'
                  heq (resolvePath root p) (hresq)
                refine ⟨fun h => absurd h hOT, fun _ _ => ⟨fun h => ?_, ?_⟩,
                  fun _ h _ => absurd hBO h⟩
                · rw [hT] at h
                  exact absurd h (by simp)
                · intro t' bh3 c' hsome hstore
                  rw [hT] at hsome
                  injection hsome with hsome
                  subst hsome
                  rw [hS] at hstore
                  injection hstore with hstore
                  have hc : c' = c := by
                    cases hstore
                    rfl
                  subst hc
                  rw [hframe]
                  exact mapGet_mapSet_self _ _ _
              · have hstep : mapGet (mapSet wf (resolvePath root q)
                    ⟨resolvePath root q, c, 0⟩) (resolvePath root p) =
                    mapGet wf (resolvePath root p) :=
                  mapGet_mapSet_ne _ _ _ _ (fun hh => hresq p hp' hh.symm)
                obtain ⟨c1, c2, c3⟩ := hposts p hp'
                exact ⟨fun h => (c1 h).trans hstep, c2,
                  fun h1 h2 h3 => (c3 h1 h2 h3).trans hstep⟩
        · -- base equals theirs: keep ours
          have hBT : mapGet baseF q = mapGet theirF q := by
            by_contra hBT
            exact hdiv ⟨⟨hOT, hBO⟩, hBT⟩
          have H := ih wf hndrest hinjrest hnerest hblobsrest
          cases hfind : rest.find?
              (fun p => threeWayDivergent baseF ourF theirF p) with
          | some p₀ =>
            rw [hfind] at H
            simp only [twLoop, if_neg hOT, if_neg hBO, if_pos hBT]
            exact H
          | none =>
            rw [hfind] at H
            obtain ⟨wf', heq, hposts⟩ := H
            refine ⟨wf', by
              simp only [twLoop, if_neg hOT, if_neg hBO, if_pos hBT]
              exact heq, ?_⟩
            intro p hp
            rcases List.mem_cons.mp hp with rfl | hp'
            · have hframe := twLoop_frame store root baseF ourF theirF rest wf wf'
                heq (resolvePath root p) (hresq)
              exact ⟨fun h => absurd h hOT, fun _ h => absurd h hBO,
                fun _ _ _ => hframe⟩
            · exact hposts p hp'

/-! ## Claim C3 -/

/-- Claim C3: during a three-way merge over the union of the base, ours,
and theirs tree paths (first conjunct, under the `Map` invariants of an
engine state: distinct paths resolve to distinct absolute paths, and a
present theirs-side hash names a stored blob), every path behaves per the
spec — if some path is pairwise divergent (`O ≠ T`, `B ≠ O`, `B ≠ T`) the
merge fails with a conflict error naming the first such path; otherwise
it succeeds and on every path equal sides are accepted unchanged, a side
change over an unchanged base takes theirs (writing the stored blob
content, or deleting the path when theirs is absent), and a base equal to
theirs keeps ours unchanged.  Second conjunct: when `threeWayMerge` fails
this way during `merge`, `merge` returns the same error, so no merge
commit is created. -/
theorem threeWayMerge_per_path :
    (∀ (fuel : Nat) (s : VirtualFileSystem) (bh oh th : String)
      (bT oT tT : String)
      (baseF ourF theirF : List (String × String)) (paths : List String),
      treeOfHash s.store bh = some bT →
      treeOfHash s.store oh = some oT →
      treeOfHash s.store th = some tT →
      baseF = getTreeFiles s.store fuel bT "" →
      ourF = getTreeFiles s.store fuel oT "" →
      theirF = getTreeFiles s.store fuel tT "" →
      paths = jsSetList
        (baseF.map (·.1) ++ ourF.map (·.1) ++ theirF.map (·.1)) →
      (∀ p ∈ paths, ∀ q ∈ paths, p ≠ q →
        resolvePath s.rootDir p ≠ resolvePath s.rootDir q) →
      (∀ p ∈ paths, mapGet theirF p ≠ some "") →
      (∀ p ∈ paths,
        (mapGet theirF p).all (fun t => isStoredBlob s.store t) = true) →
      match paths.find? (fun p => threeWayDivergent baseF ourF theirF p) with
      | some p₀ => threeWayMerge fuel s bh oh th =
          .error ("Merge conflict in " ++ p₀)
      | none => ∃ wf',
          threeWayMerge fuel s bh oh th = .ok { s with workingFiles := wf' } ∧
          ∀ p ∈ paths, twPost s.store s.rootDir baseF ourF theirF
            s.workingFiles wf' p) ∧
    (∀ (compile : String → Option (String → Bool)) (fuel : Nat)
      (s : VirtualFileSystem) (branch : String) (now : Nat)
      (th ou base e : String),
      jsTruthy (resolveRef s branch) = some th →
      jsTruthy (resolveRef s s.HEAD) = some ou →
      ou ≠ th →
      findMergeBase s.store fuel ou th = some base →
      base ≠ ou → base ≠ th →
      threeWayMerge fuel s base ou th = .error e →
      merge compile fuel s branch now = .error e) := by
  constructor
  · intro fuel s bh oh th bT oT tT baseF ourF theirF paths hb ho ht
      hbF hoF htF hps hinj hne hblobs
    subst hbF
    subst hoF
    subst htF
    subst hps
    have H := twLoop_main s.store s.rootDir
      (getTreeFiles s.store fuel bT "") (getTreeFiles s.store fuel oT "")
      (getTreeFiles s.store fuel tT "")
      (jsSetList
        ((getTreeFiles s.store fuel bT "").map (·.1) ++
          (getTreeFiles s.store fuel oT "").map (·.1) ++
          (getTreeFiles s.store fuel tT "").map (·.1)))
      s.workingFiles (jsSetList_nodup _) hinj hne hblobs
    cases hfind : (jsSetList
        ((getTreeFiles s.store fuel bT "").map (·.1) ++
          (getTreeFiles s.store fuel oT "").map (·.1) ++
          (getTreeFiles s.store fuel tT "").map (·.1))).find?
        (fun p => threeWayDivergent (getTreeFiles s.store fuel bT "")
          (getTreeFiles s.store fuel oT "") (getTreeFiles s.store fuel tT "")
          p) with
    | some p₀ =>
      rw [hfind] at H
      simp only [threeWayMerge, hb, ho, ht]
      rw [H]
      rfl
    | none =>
      rw [hfind] at H
      obtain ⟨wf', heq, hposts⟩ := H
      refine ⟨wf', ?_, hposts⟩
      simp only [threeWayMerge, hb, ho, ht]
      rw [heq]
      rfl
  · intro compile fuel s branch now th ou base e h1 h2 hne hmb hbo hbt hthree
    unfold merge
    rw [h1, h2]
    simp only [if_neg hne, hmb]
    rw [if_neg hbo, if_neg hbt, hthree]
    rfl

/-- Witness for claim C3 at a concrete state where both sides changed the
file `x` differently since the base commit: the merge fails with the
conflict error naming `x`. -/
theorem threeWayMerge_per_path_witness :
    threeWayMerge 10 c3WitnessState "c0" "cm" "cb" =
      .error ("Merge conflict in " ++ "x") := by
  have H := threeWayMerge_per_path.1 10 c3WitnessState "c0" "cm" "cb"
    "t0" "t1" "t2"
    (getTreeFiles c3WitnessState.store 10 "t0" "")
    (getTreeFiles c3WitnessState.store 10 "t1" "")
    (getTreeFiles c3WitnessState.store 10 "t2" "")
    (jsSetList
      ((getTreeFiles c3WitnessState.store 10 "t0" "").map (·.1) ++
        (getTreeFiles c3WitnessState.store 10 "t1" "").map (·.1) ++
        (getTreeFiles c3WitnessState.store 10 "t2" "").map (·.1)))
    rfl rfl rfl rfl rfl rfl rfl (by decide) (by decide) (by decide)
  have hfind : (jsSetList
      ((getTreeFiles c3WitnessState.store 10 "t0" "").map (·.1) ++
        (getTreeFiles c3WitnessState.store 10 "t1" "").map (·.1) ++
        (getTreeFiles c3WitnessState.store 10 "t2" "").map (·.1))).find?
      (fun p => threeWayDivergent
        (getTreeFiles c3WitnessState.store 10 "t0" "")
        (getTreeFiles c3WitnessState.store 10 "t1" "")
        (getTreeFiles c3WitnessState.store 10 "t2" "") p) = some "x" := by
    decide
  rw [hfind] at H
  exact H
